import Mathlib

/-!
Verification of the range tracker of neqo-transport
(src/neqo-transport/src/range_tracker.rs).

The map `used : BTreeMap<u64, (u64, RangeState)>` of the source is
represented as a list of entries sorted by key; an entry `(k, l, s)`
stands for the map binding `k -> (l, s)`.  Every operation below is a
direct translation of the corresponding Rust function; iteration order
of `BTreeMap::range` / `.rev()` is realised by filtering the sorted
list and, for the descending walk, reversing it.

All u64 arithmetic is modelled on `Nat`.  The translations are exact
for calls whose end offset `off + len` fits in 64 bits; the wrapping
u64 behaviour at the overflow boundary (relevant to claim C8 only) is
modelled separately by `mark_range64` / `unmark_range64`, with `none`
standing for a Rust panic.
-/

inductive RangeState where
  | Sent
  | Acked
deriving DecidableEq

open RangeState

/-- An entry of the ordered map: (offset, length, state). -/
abbrev Entry := Nat × Nat × RangeState

/-- The tracker: the ordered map `used` plus the memoised answer of
`first_unmarked_range` (source lines 36-40). -/
structure RangeTracker where
  used : List Entry
  cached : Option (Nat × Option Nat)
deriving DecidableEq

/-- The freshly created tracker (derived `Default`). -/
def emptyTracker : RangeTracker := { used := [], cached := none }

/-- BTreeMap::get on the sorted entry list. -/
def treeGet (k : Nat) : List Entry → Option (Nat × RangeState)
  | [] => none
  | (k', l, s) :: rest => if k' = k then some (l, s) else treeGet k rest

/-- BTreeMap::insert on the sorted entry list: replaces the value at an
existing key, otherwise inserts at the sorted position. -/
def treeInsert (k : Nat) (v : Nat × RangeState) : List Entry → List Entry
  | [] => [(k, v.1, v.2)]
  | (k', l, s) :: rest =>
    if k < k' then (k, v.1, v.2) :: (k', l, s) :: rest
    else if k = k' then (k, v.1, v.2) :: rest
    else (k', l, s) :: treeInsert k v rest

/-- BTreeMap::remove on the sorted entry list. -/
def treeRemove (k : Nat) : List Entry → List Entry
  | [] => []
  | (k', l, s) :: rest => if k = k' then rest else (k', l, s) :: treeRemove k rest

/-- Overwriting the whole value at a key (`*get_mut(&k) = v`). -/
def setEntry (k : Nat) (v : Nat × RangeState) : List Entry → List Entry
  | [] => []
  | (k', l, s) :: rest =>
    if k' = k then (k', v.1, v.2) :: rest else (k', l, s) :: setEntry k v rest

/-- Overwriting only the length at a key (`get_mut(&k).0 = l` and
`*cur_len = ...`); the state is kept. -/
def setEntryLen (k : Nat) (l : Nat) : List Entry → List Entry
  | [] => []
  | (k', l', s) :: rest =>
    if k' = k then (k', l, s) :: rest else (k', l', s) :: setEntryLen k l rest

/-- Source lines 50-56: largest `offset + len` over all entries, 0 when
empty (`range(..).next_back()` is the last entry of the sorted list). -/
def highest_offset (t : RangeTracker) : Nat :=
  match t.used.getLast? with
  | none => 0
  | some (k, l, _) => k + l

/-- Source lines 58-64: length of the Acked entry at key 0, else 0. -/
def acked_from_zero (t : RangeTracker) : Nat :=
  match treeGet 0 t.used with
  | some (l, Acked) => l
  | _ => 0

/-- Ascending walk of source lines 73-80, tracking `prev_end`. -/
def firstUnmarkedLoop : Nat → List Entry → Nat × Option Nat
  | prev_end, [] => (prev_end, none)
  | prev_end, (cur_off, cur_len, _) :: rest =>
    if prev_end = cur_off then firstUnmarkedLoop (cur_off + cur_len) rest
    else (prev_end, some (cur_off - prev_end))

/-- Source lines 68-83: `first_unmarked_range`.  The Rust method takes
`&mut self` only to update the cache, so the model returns the answer
together with the updated tracker. -/
def first_unmarked_range (t : RangeTracker) : (Nat × Option Nat) × RangeTracker :=
  match t.cached with
  | some c => (c, t)
  | none =>
    let r := firstUnmarkedLoop 0 t.used
    (r, { t with cached := some r })

/-- Source lines 113-122 of `chunk_range_on_edges`: cut the greatest
entry whose key is strictly below `new_off` (`range_mut(..tmp_off)
.next_back()`) when it overlaps the new range; `overlap` uses
`saturating_sub`, which is the ordinary `Nat` subtraction.  The
recursion walks to the last entry with key `< new_off` of the sorted
list. -/
def leftSplit (new_off : Nat) : List Entry → List Entry
  | [] => []
  | (k, l, s) :: rest =>
    if k < new_off then
      if rest.any (fun e => decide (e.1 < new_off)) then
        (k, l, s) :: leftSplit new_off rest
      else
        let overlap := (k + l) - new_off
        (k, l - overlap, s) ::
          (if 0 < overlap then treeInsert new_off (overlap, s) rest else rest)
    else (k, l, s) :: rest

/-- Source lines 124-154: the middle walk of `chunk_range_on_edges`
over the entries whose key lies in `[new_off, new_off + new_len)`.
State: current `tmp_off`, `tmp_len`, the chunk vector `v`, and
`last_existing_remaining`. -/
def middleWalk (new_state : RangeState) :
    List Entry → Nat → Nat → List Entry → Option (Nat × Nat × Nat × RangeState) →
    Nat × Nat × List Entry × Option (Nat × Nat × Nat × RangeState)
  | [], tmp_off, tmp_len, v, last_rem => (tmp_off, tmp_len, v, last_rem)
  | (off, len, state) :: rest, tmp_off, tmp_len, v, last_rem =>
    -- Chunk for the "overhang" before an existing range (lines 126-132).
    -- The guarded updates of tmp_off and tmp_len are written without the
    -- guard: when tmp_off is not below off, the saturating difference
    -- off - tmp_off is 0 and both updates are the identity, exactly as in
    -- the source where the branch is skipped.
    let v1 := if tmp_off < off then v ++ [(tmp_off, off - tmp_off, new_state)] else v
    let tmp_len1 := tmp_len - (off - tmp_off)
    let tmp_off1 := tmp_off + (off - tmp_off)
    -- chunk matching the existing range (lines 134-149)
    let sub_len := min len tmp_len1
    let remaining_len := len - sub_len
    let v2 := if new_state = Sent ∧ state = Acked then v1
              else v1 ++ [(tmp_off1, sub_len, new_state)]
    let last_rem1 := if 0 < remaining_len then some (off, sub_len, remaining_len, state)
                     else last_rem
    middleWalk new_state rest (tmp_off1 + sub_len) (tmp_len1 - sub_len) v2 last_rem1

/-- Source lines 156-161: break the last existing range in two when it
extends past the new range (`get_mut` rewrite plus `insert`). -/
def rightSplit : List Entry → Option (Nat × Nat × Nat × RangeState) → List Entry
  | tree, none => tree
  | tree, some (off, sub_len, remaining_len, state) =>
    treeInsert (off + sub_len) (remaining_len, state) (setEntry off (sub_len, state) tree)

/-- Source lines 103-169: `chunk_range_on_edges`.  Returns the chunk
list and the tree after the left and right splits. -/
def chunk_range_on_edges (tree : List Entry) (new_off new_len : Nat)
    (new_state : RangeState) : List Entry × List Entry :=
  let tree1 := leftSplit new_off tree
  let middle := tree1.filter (fun e => decide (new_off ≤ e.1 ∧ e.1 < new_off + new_len))
  match middleWalk new_state middle new_off new_len [] none with
  | (tmp_off, tmp_len, v, last_rem) =>
    let tree2 := rightSplit tree1 last_rem
    -- final chunk if anything remains of the new range (lines 163-166)
    (if 0 < tmp_len then v ++ [(tmp_off, tmp_len, new_state)] else v, tree2)

/-- Source lines 186-195: the `while let` of `coalesce_acked_from_zero`.
The fuel argument only bounds the iteration count; on well-formed
trackers the looked-up keys are strictly increasing keys of distinct
entries, so `tree.length + 1` units of fuel are never exhausted. -/
def coalesceLoop (tree : List Entry) : Nat → Nat → List Nat → Nat × List Nat
  | 0, new_len, to_remove => (new_len, to_remove)
  | fuel + 1, new_len, to_remove =>
    match treeGet new_len tree with
    | some (next_len, Acked) =>
      coalesceLoop tree fuel (new_len + next_len) (to_remove ++ [new_len])
    | _ => (new_len, to_remove)

/-- Source lines 173-205: merge the Acked entries contiguous to the
entry at key 0 into it. -/
def coalesce_acked_from_zero (tree : List Entry) : List Entry :=
  match treeGet 0 tree with
  | some (len_from_zero, Acked) =>
    match coalesceLoop tree (tree.length + 1) len_from_zero [] with
    | (new_len_from_zero, to_remove) =>
      let tree1 := if len_from_zero ≠ new_len_from_zero
                   then setEntryLen 0 new_len_from_zero tree else tree
      to_remove.foldl (fun t k => treeRemove k t) tree1
  | _ => tree

/-- Source lines 207-221: `mark_range`.  A zero length returns without
touching the cache; otherwise the cache is cleared, the range is
chunked, the chunks are inserted, and the Acked prefix is coalesced. -/
def mark_range (t : RangeTracker) (off len : Nat) (state : RangeState) : RangeTracker :=
  if len = 0 then t
  else
    match chunk_range_on_edges t.used off len state with
    | (subranges, tree) =>
      { used := coalesce_acked_from_zero
          (subranges.foldl (fun tr e => treeInsert e.1 (e.2.1, e.2.2) tr) tree),
        cached := none }

/-- Source lines 237-279: the descending walk of `unmark_range` over
the entries whose key is `< off + len`, collecting the keys to remove,
the optional re-insertion for the part of a removed range beyond
`off + len`, and the optional trim of the entry preceding `off`.
The walk stops at the first entry whose key is `< off` (the source
`break`).  The source asserts `to_add == None` before setting it; on
well-formed trackers at most one visited range extends past
`off + len`, so the overwrite below never actually discards a value. -/
def unmarkLoop (off len : Nat) :
    List Entry → List Nat → Option Entry →
    List Nat × Option Entry × Option (Nat × Nat)
  | [], to_remove, to_add => (to_remove, to_add, none)
  | (cur_off, cur_len, cur_state) :: rest, to_remove, to_add =>
    if cur_off < off then
      (to_remove, to_add,
        if cur_off + cur_len > off ∧ cur_state ≠ Acked then some (cur_off, off - cur_off)
        else none)
    else if cur_state = Acked then
      unmarkLoop off len rest to_remove to_add
    else
      unmarkLoop off len rest (to_remove ++ [cur_off])
        (if cur_off + cur_len > off + len then
          some (off + len, (cur_off + cur_len) - (off + len), cur_state)
         else to_add)

/-- Source lines 223-288: `unmark_range`.  A zero length returns
without touching the cache; otherwise the cache is cleared, the
descending walk collects the changes, and they are applied: the trim,
the removals, then the single re-insertion. -/
def unmark_range (t : RangeTracker) (off len : Nat) : RangeTracker :=
  if len = 0 then t
  else
    match unmarkLoop off len ((t.used.filter (fun e => decide (e.1 < off + len))).reverse) [] none with
    | (to_remove, to_add, trim) =>
      let tree := match trim with
        | some (k, new_len) => setEntryLen k new_len t.used
        | none => t.used
      let tree := to_remove.foldl (fun tr k => treeRemove k tr) tree
      let tree := match to_add with
        | some (k, l, s) => treeInsert k (l, s) tree
        | none => tree
      { used := tree, cached := none }

/-- Source lines 291-293: `unmark_sent`. -/
def unmark_sent (t : RangeTracker) : RangeTracker :=
  unmark_range t 0 (highest_offset t)

/-- The state an offset is in: the state of the entry covering it, or
`none` for unmarked.  This is the denotation the claims speak about. -/
def covState (x : Nat) : List Entry → Option RangeState
  | [] => none
  | (k, l, s) :: rest => if k ≤ x ∧ x < k + l then some s else covState x rest

/-- Well-formedness of the sorted entry list: every key is at least the
lower bound, lengths are positive, and each entry ends at or before the
next key (so entries are sorted and pairwise disjoint). -/
def Chained : Nat → List Entry → Prop
  | _, [] => True
  | lb, (k, l, _) :: rest => lb ≤ k ∧ 0 < l ∧ Chained (k + l) rest

/-- The acknowledged prefix is coalesced: when an Acked entry of length
`L` sits at key 0, no Acked entry sits at key `L`. -/
def PrefixCoalesced (tree : List Entry) : Prop :=
  ∀ L l', treeGet 0 tree = some (L, Acked) → treeGet L tree ≠ some (l', Acked)

/-- Applying the optional trim collected by the descending walk of
`unmark_range` (proof-side abbreviation of the first `let tree` of the
source). -/
def trimTree (u : List Entry) : Option (Nat × Nat) → List Entry
  | some (k, new_len) => setEntryLen k new_len u
  | none => u

/-- Applying the optional re-insertion collected by the descending walk
of `unmark_range` (proof-side abbreviation of the last `let tree` of the
source). -/
def addTree (tree : List Entry) : Option Entry → List Entry
  | some (k, l, s) => treeInsert k (l, s) tree
  | none => tree

/-- Compatibility of a chunk with the tree it is inserted into: the
chunk either coincides with the span of an existing entry, or lies
entirely in a hole. -/
def Fits (tree : List Entry) (c : Entry) : Prop :=
  (∃ s, (c.1, c.2.1, s) ∈ tree) ∨
  (∀ e ∈ tree, e.1 + e.2.1 ≤ c.1 ∨ c.1 + c.2.1 ≤ e.1)

/-- The u64 offset space bound, 2 ^ 64. -/
def twoPow64 : Nat := 18446744073709551616

/-- One public operation of the tracker.  The bound `off + len <
twoPow64` keeps the call inside the regime where the u64 arithmetic of
the source does not overflow, so that the `Nat` model is exact (claim
C8 settles what happens at the overflow boundary). -/
inductive Step : RangeTracker → RangeTracker → Prop where
  | mark (t : RangeTracker) (off len : Nat) (state : RangeState)
      (h : off + len < twoPow64) : Step t (mark_range t off len state)
  | unmark (t : RangeTracker) (off len : Nat)
      (h : off + len < twoPow64) : Step t (unmark_range t off len)
  | unmarkSent (t : RangeTracker) : Step t (unmark_sent t)
  | query (t : RangeTracker) : Step t (first_unmarked_range t).2

/-- States reachable from the empty tracker by public operations. -/
inductive Reachable : RangeTracker → Prop where
  | empty : Reachable emptyTracker
  | step {t t' : RangeTracker} : Reachable t → Step t t' → Reachable t'

/-- Wrapping 64-bit addition, the release-mode semantics of `+` on u64. -/
def add64 (a b : Nat) : Nat := (a + b) % twoPow64

/-- Wrapping u64 model of `mark_range` at the overflow boundary.  With
`len > 0`, the range bound `tmp_off..tmp_off + tmp_len` of source line
125 is computed with wrapping addition; when the wrapped end falls
below the start, `BTreeMap::range` panics (modelled as `none`), which
is exactly the case `off + len > 2^64 - 1`.  Otherwise no addition in
the call wraps for trackers whose entries end below 2^64, and the
behaviour is the `Nat` model. -/
def mark_range64 (t : RangeTracker) (off len : Nat) (state : RangeState) :
    Option RangeTracker :=
  if len = 0 then some t
  else if add64 off len < off then none
  else some (mark_range t off len state)

/-- Wrapping u64 model of the descending walk of `unmark_range`: every
`cur_off + cur_len` and `off + len` of source lines 237-279 is the
wrapping addition, and the `assert_eq!(to_add, None)` of line 274 is a
panic (`none`) when it fails. -/
def unmarkLoop64 (off len : Nat) :
    List Entry → List Nat → Option Entry →
    Option (List Nat × Option Entry × Option (Nat × Nat))
  | [], to_remove, to_add => some (to_remove, to_add, none)
  | (cur_off, cur_len, cur_state) :: rest, to_remove, to_add =>
    if cur_off < off then
      some (to_remove, to_add,
        if add64 cur_off cur_len > off ∧ cur_state ≠ Acked then some (cur_off, off - cur_off)
        else none)
    else if cur_state = Acked then
      unmarkLoop64 off len rest to_remove to_add
    else if add64 cur_off cur_len > add64 off len then
      match to_add with
      | some _ => none
      | none =>
        unmarkLoop64 off len rest (to_remove ++ [cur_off])
          (some (add64 off len, add64 cur_off cur_len - add64 off len, cur_state))
    else unmarkLoop64 off len rest (to_remove ++ [cur_off]) to_add

/-- Wrapping u64 model of `unmark_range`: `end_off = off + len` wraps
(source lines 230-232), and the walk runs over the keys below the
wrapped bound; `BTreeMap::range_mut(..e)` never panics.  `none` models
a panic of the asserted walk. -/
def unmark_range64 (t : RangeTracker) (off len : Nat) : Option RangeTracker :=
  if len = 0 then some t
  else
    match unmarkLoop64 off len
        ((t.used.filter (fun e => decide (e.1 < add64 off len))).reverse) [] none with
    | none => none
    | some (to_remove, to_add, trim) =>
      let tree := match trim with
        | some (k, new_len) => setEntryLen k new_len t.used
        | none => t.used
      let tree := to_remove.foldl (fun tr k => treeRemove k tr) tree
      let tree := match to_add with
        | some (k, l, s) => treeInsert k (l, s) tree
        | none => tree
      some { used := tree, cached := none }

/-! ### Generic lemmas about the sorted entry list -/

theorem Chained.mono {lb lb' : Nat} {l : List Entry} (hle : lb' ≤ lb)
    (h : Chained lb l) : Chained lb' l := by
  cases l with
  | nil => trivial
  | cons e rest =>
    obtain ⟨k, ln, s⟩ := e
    exact ⟨le_trans hle h.1, h.2⟩

theorem chained_bounds {lb : Nat} {l : List Entry} (h : Chained lb l) :
    ∀ e ∈ l, lb ≤ e.1 ∧ 0 < e.2.1 := by
  induction l generalizing lb with
  | nil => intro e he; cases he
  | cons hd rest ih =>
    obtain ⟨k, ln, s⟩ := hd
    intro e he
    rcases List.mem_cons.mp he with he | he
    · subst he; exact ⟨h.1, h.2.1⟩
    · have := ih h.2.2 e he
      exact ⟨le_trans (le_trans h.1 (Nat.le_add_right _ _)) this.1, this.2⟩

theorem chained_strengthen {lb c : Nat} {l : List Entry} (h : Chained lb l)
    (hk : ∀ e ∈ l, c ≤ e.1) : Chained c l := by
  cases l with
  | nil => trivial
  | cons e rest =>
    obtain ⟨k, ln, s⟩ := e
    exact ⟨hk _ (List.mem_cons_self _ _), h.2⟩

theorem chained_filter {lb : Nat} {l : List Entry} (p : Entry → Bool)
    (h : Chained lb l) : Chained lb (l.filter p) := by
  induction l generalizing lb with
  | nil => trivial
  | cons hd rest ih =>
    obtain ⟨k, ln, s⟩ := hd
    by_cases hp : p (k, ln, s) = true
    · rw [List.filter_cons, if_pos hp]
      exact ⟨h.1, h.2.1, ih h.2.2⟩
    · rw [List.filter_cons, if_neg hp]
      exact (ih h.2.2).mono (le_trans h.1 (Nat.le_add_right _ _))

theorem chained_pairwise {lb : Nat} {l : List Entry} (h : Chained lb l) :
    ∀ k1 l1 s1 k2 l2 s2, (k1, l1, s1) ∈ l → (k2, l2, s2) ∈ l → k1 < k2 →
      k1 + l1 ≤ k2 := by
  induction l generalizing lb with
  | nil => intro _ _ _ _ _ _ h1; cases h1
  | cons hd rest ih =>
    obtain ⟨k, ln, s⟩ := hd
    intro k1 l1 s1 k2 l2 s2 h1 h2 hlt
    simp only [List.mem_cons, Prod.mk.injEq] at h1 h2
    rcases h1 with ⟨e1, e2, e3⟩ | h1 <;> rcases h2 with ⟨f1, f2, f3⟩ | h2
    · omega
    · have hb : k + ln ≤ k2 := (chained_bounds h.2.2 _ h2).1
      omega
    · have hb : k + ln ≤ k1 := (chained_bounds h.2.2 _ h1).1
      have hp : 0 < ln := h.2.1
      omega
    · exact ih h.2.2 _ _ _ _ _ _ h1 h2 hlt

theorem chained_unique {lb : Nat} {l : List Entry} (h : Chained lb l) :
    ∀ k a b c d, (k, a, b) ∈ l → (k, c, d) ∈ l → a = c ∧ b = d := by
  induction l generalizing lb with
  | nil => intro _ _ _ _ _ h1; cases h1
  | cons hd rest ih =>
    obtain ⟨k0, l0, s0⟩ := hd
    intro k a b c d h1 h2
    simp only [List.mem_cons, Prod.mk.injEq] at h1 h2
    rcases h1 with ⟨e1, e2, e3⟩ | h1 <;> rcases h2 with ⟨f1, f2, f3⟩ | h2
    · exact ⟨e2.trans f2.symm, e3.trans f3.symm⟩
    · exfalso
      have hb : k0 + l0 ≤ k := (chained_bounds h.2.2 _ h2).1
      have hp : 0 < l0 := h.2.1
      omega
    · exfalso
      have hb : k0 + l0 ≤ k := (chained_bounds h.2.2 _ h1).1
      have hp : 0 < l0 := h.2.1
      omega
    · exact ih h.2.2 _ _ _ _ _ h1 h2

theorem covState_eq_none {x : Nat} {l : List Entry}
    (h : ∀ e ∈ l, ¬(e.1 ≤ x ∧ x < e.1 + e.2.1)) : covState x l = none := by
  induction l with
  | nil => rfl
  | cons hd rest ih =>
    obtain ⟨k, ln, s⟩ := hd
    have hh : ¬(k ≤ x ∧ x < k + ln) := h (k, ln, s) (List.mem_cons_self _ _)
    rw [covState, if_neg hh]
    exact ih fun e he => h e (List.mem_cons_of_mem _ he)

theorem covState_some_elim {x : Nat} {l : List Entry} {s : RangeState}
    (h : covState x l = some s) :
    ∃ k ln, (k, ln, s) ∈ l ∧ k ≤ x ∧ x < k + ln := by
  induction l with
  | nil => cases h
  | cons hd rest ih =>
    obtain ⟨k, ln, s'⟩ := hd
    by_cases hc : k ≤ x ∧ x < k + ln
    · rw [covState, if_pos hc] at h
      injection h with h; subst h
      exact ⟨k, ln, List.mem_cons_self _ _, hc⟩
    · rw [covState, if_neg hc] at h
      obtain ⟨k', ln', hm, hx⟩ := ih h
      exact ⟨k', ln', List.mem_cons_of_mem _ hm, hx⟩

theorem covState_of_mem {lb x k ln : Nat} {s : RangeState} {l : List Entry}
    (hc : Chained lb l) (hm : (k, ln, s) ∈ l) (h1 : k ≤ x) (h2 : x < k + ln) :
    covState x l = some s := by
  induction l generalizing lb with
  | nil => cases hm
  | cons hd rest ih =>
    obtain ⟨k0, l0, s0⟩ := hd
    rcases List.mem_cons.mp hm with hm | hm
    · injection hm with e1 e2; injection e2 with e2 e3
      subst e1 e2 e3
      rw [covState, if_pos ⟨h1, h2⟩]
    · have hb : k0 + l0 ≤ k := (chained_bounds hc.2.2 _ hm).1
      have hno : ¬(k0 ≤ x ∧ x < k0 + l0) := by omega
      rw [covState, if_neg hno]
      exact ih hc.2.2 hm

theorem covState_lt_lb {lb x : Nat} {l : List Entry} (hc : Chained lb l)
    (hx : x < lb) : covState x l = none := by
  apply covState_eq_none
  intro e he
  have := chained_bounds hc e he
  omega

theorem covState_append {x : Nat} (X Y : List Entry) :
    covState x (X ++ Y) =
      match covState x X with
      | some s => some s
      | none => covState x Y := by
  induction X with
  | nil => rfl
  | cons hd rest ih =>
    obtain ⟨k, ln, s⟩ := hd
    by_cases hc : k ≤ x ∧ x < k + ln
    · simp only [List.cons_append, covState, if_pos hc]
    · simp only [List.cons_append, covState, if_neg hc]
      exact ih

theorem treeGet_eq_none {k : Nat} {l : List Entry} (h : ∀ e ∈ l, e.1 ≠ k) :
    treeGet k l = none := by
  induction l with
  | nil => rfl
  | cons hd rest ih =>
    obtain ⟨k0, l0, s0⟩ := hd
    have h0 : k0 ≠ k := h (k0, l0, s0) (List.mem_cons_self _ _)
    rw [treeGet, if_neg h0]
    exact ih fun e he => h e (List.mem_cons_of_mem _ he)

theorem treeGet_mem {k ln : Nat} {s : RangeState} {l : List Entry}
    (h : treeGet k l = some (ln, s)) : (k, ln, s) ∈ l := by
  induction l with
  | nil => cases h
  | cons hd rest ih =>
    obtain ⟨k0, l0, s0⟩ := hd
    by_cases h0 : k0 = k
    · rw [treeGet, if_pos h0] at h
      injection h with h
      injection h with h1 h2
      subst h0 h1 h2
      exact List.mem_cons_self _ _
    · rw [treeGet, if_neg h0] at h
      exact List.mem_cons_of_mem _ (ih h)

theorem treeGet_of_mem {lb k ln : Nat} {s : RangeState} {l : List Entry}
    (hc : Chained lb l) (hm : (k, ln, s) ∈ l) : treeGet k l = some (ln, s) := by
  induction l generalizing lb with
  | nil => cases hm
  | cons hd rest ih =>
    obtain ⟨k0, l0, s0⟩ := hd
    rcases List.mem_cons.mp hm with hm | hm
    · injection hm with e1 e2; injection e2 with e2 e3
      subst e1 e2 e3
      rw [treeGet, if_pos rfl]
    · have hb : k0 + l0 ≤ k := (chained_bounds hc.2.2 _ hm).1
      have h0 : k0 ≠ k := by have := hc.2.1; omega
      rw [treeGet, if_neg h0]
      exact ih hc.2.2 hm

theorem treeGet_append {k : Nat} (X Y : List Entry) :
    treeGet k (X ++ Y) =
      match treeGet k X with
      | some v => some v
      | none => treeGet k Y := by
  induction X with
  | nil => rfl
  | cons hd rest ih =>
    obtain ⟨k0, l0, s0⟩ := hd
    by_cases h0 : k0 = k
    · simp only [List.cons_append, treeGet, if_pos h0]
    · simp only [List.cons_append, treeGet, if_neg h0]
      exact ih

theorem treeInsert_front {k : Nat} {v : Nat × RangeState} {l : List Entry}
    (h : ∀ e ∈ l, k < e.1) : treeInsert k v l = (k, v.1, v.2) :: l := by
  cases l with
  | nil => rfl
  | cons hd rest =>
    obtain ⟨k0, l0, s0⟩ := hd
    rw [treeInsert, if_pos (h (k0, l0, s0) (List.mem_cons_self _ _))]

theorem mem_treeInsert_elim {e : Entry} {k : Nat} {v : Nat × RangeState}
    {l : List Entry} (hm : e ∈ treeInsert k v l) : e = (k, v.1, v.2) ∨ e ∈ l := by
  induction l with
  | nil =>
    rcases List.mem_cons.mp hm with hm | hm
    · exact Or.inl hm
    · cases hm
  | cons hd rest ih =>
    obtain ⟨k0, l0, s0⟩ := hd
    by_cases h1 : k < k0
    · rw [treeInsert, if_pos h1] at hm
      rcases List.mem_cons.mp hm with hm | hm
      · exact Or.inl hm
      · exact Or.inr hm
    · by_cases h2 : k = k0
      · rw [treeInsert, if_neg h1, if_pos h2] at hm
        rcases List.mem_cons.mp hm with hm | hm
        · exact Or.inl hm
        · exact Or.inr (List.mem_cons_of_mem _ hm)
      · rw [treeInsert, if_neg h1, if_neg h2] at hm
        rcases List.mem_cons.mp hm with hm | hm
        · exact Or.inr (hm ▸ List.mem_cons_self _ _)
        · rcases ih hm with hm | hm
          · exact Or.inl hm
          · exact Or.inr (List.mem_cons_of_mem _ hm)

theorem mem_treeInsert_of_mem {e : Entry} {k : Nat} {v : Nat × RangeState}
    {l : List Entry} (hne : e.1 ≠ k) (hm : e ∈ l) : e ∈ treeInsert k v l := by
  induction l with
  | nil => cases hm
  | cons hd rest ih =>
    obtain ⟨k0, l0, s0⟩ := hd
    by_cases h1 : k < k0
    · rw [treeInsert, if_pos h1]
      exact List.mem_cons_of_mem _ hm
    · by_cases h2 : k = k0
      · rw [treeInsert, if_neg h1, if_pos h2]
        rcases List.mem_cons.mp hm with hm | hm
        · exact absurd (by rw [hm, h2]) hne
        · exact List.mem_cons_of_mem _ hm
      · rw [treeInsert, if_neg h1, if_neg h2]
        rcases List.mem_cons.mp hm with hm | hm
        · exact hm ▸ List.mem_cons_self _ _
        · exact List.mem_cons_of_mem _ (ih hm)

theorem treeGet_treeInsert_self {k : Nat} {v : Nat × RangeState} {l : List Entry} :
    treeGet k (treeInsert k v l) = some v := by
  induction l with
  | nil => rw [treeInsert, treeGet, if_pos rfl]
  | cons hd rest ih =>
    obtain ⟨k0, l0, s0⟩ := hd
    by_cases h1 : k < k0
    · rw [treeInsert, if_pos h1, treeGet, if_pos rfl]
    · by_cases h2 : k = k0
      · rw [treeInsert, if_neg h1, if_pos h2, treeGet, if_pos rfl]
      · rw [treeInsert, if_neg h1, if_neg h2, treeGet,
          if_neg (fun he => h2 he.symm)]
        exact ih

theorem treeGet_treeInsert_ne {k' k : Nat} {v : Nat × RangeState} {l : List Entry}
    (hne : k' ≠ k) : treeGet k' (treeInsert k v l) = treeGet k' l := by
  have hkk : k ≠ k' := fun he => hne he.symm
  induction l with
  | nil => simp [treeInsert, treeGet, hkk]
  | cons hd rest ih =>
    obtain ⟨k0, l0, s0⟩ := hd
    by_cases h1 : k < k0
    · rw [treeInsert, if_pos h1, treeGet, if_neg hkk]
    · by_cases h2 : k = k0
      · subst h2
        rw [treeInsert, if_neg h1, if_pos rfl, treeGet, if_neg hkk, treeGet, if_neg hkk]
      · rw [treeInsert, if_neg h1, if_neg h2, treeGet, treeGet]
        by_cases h3 : k0 = k'
        · rw [if_pos h3, if_pos h3]
        · rw [if_neg h3, if_neg h3, ih]

theorem treeInsert_append {k : Nat} {v : Nat × RangeState} {X Y : List Entry}
    (h : ∀ e ∈ X, e.1 < k) : treeInsert k v (X ++ Y) = X ++ treeInsert k v Y := by
  induction X with
  | nil => rfl
  | cons hd rest ih =>
    obtain ⟨k0, l0, s0⟩ := hd
    have h0 : k0 < k := h (k0, l0, s0) (List.mem_cons_self _ _)
    rw [List.cons_append, treeInsert, if_neg (by omega), if_neg (by omega),
      List.cons_append, ih fun e he => h e (List.mem_cons_of_mem _ he)]

theorem chained_treeRemove {lb k : Nat} {l : List Entry} (hc : Chained lb l) :
    Chained lb (treeRemove k l) := by
  induction l generalizing lb with
  | nil => trivial
  | cons hd rest ih =>
    obtain ⟨k0, l0, s0⟩ := hd
    by_cases h0 : k = k0
    · rw [treeRemove, if_pos h0]
      exact hc.2.2.mono (le_trans hc.1 (Nat.le_add_right _ _))
    · rw [treeRemove, if_neg h0]
      exact ⟨hc.1, hc.2.1, ih hc.2.2⟩

theorem mem_treeRemove {e : Entry} {k : Nat} {l : List Entry}
    (h : e ∈ treeRemove k l) : e ∈ l := by
  induction l with
  | nil => cases h
  | cons hd rest ih =>
    obtain ⟨k0, l0, s0⟩ := hd
    by_cases h0 : k = k0
    · rw [treeRemove, if_pos h0] at h
      exact List.mem_cons_of_mem _ h
    · rw [treeRemove, if_neg h0] at h
      rcases List.mem_cons.mp h with h | h
      · exact h ▸ List.mem_cons_self _ _
      · exact List.mem_cons_of_mem _ (ih h)

theorem treeRemove_cons_ne {k k0 l0 : Nat} {s0 : RangeState} {rest : List Entry}
    (h : k ≠ k0) : treeRemove k ((k0, l0, s0) :: rest) = (k0, l0, s0) :: treeRemove k rest := by
  rw [treeRemove, if_neg h]

theorem foldl_treeRemove_cons {ks : List Nat} {e : Entry} {l : List Entry}
    (h : ∀ k ∈ ks, k ≠ e.1) :
    ks.foldl (fun t k => treeRemove k t) (e :: l) =
      e :: ks.foldl (fun t k => treeRemove k t) l := by
  induction ks generalizing l with
  | nil => rfl
  | cons k ks' ih =>
    obtain ⟨k0, l0, s0⟩ := e
    have h0 : k ≠ k0 := h k (List.mem_cons_self _ _)
    rw [List.foldl_cons, List.foldl_cons, treeRemove_cons_ne h0]
    exact ih fun k' hk' => h k' (List.mem_cons_of_mem _ hk')

theorem setEntry_cons_ne {k k0 l0 : Nat} {s0 : RangeState} {v : Nat × RangeState}
    {rest : List Entry} (h : k0 ≠ k) :
    setEntry k v ((k0, l0, s0) :: rest) = (k0, l0, s0) :: setEntry k v rest := by
  rw [setEntry, if_neg h]

theorem setEntryLen_cons_ne {k k0 l0 ln : Nat} {s0 : RangeState}
    {rest : List Entry} (h : k0 ≠ k) :
    setEntryLen k ln ((k0, l0, s0) :: rest) = (k0, l0, s0) :: setEntryLen k ln rest := by
  rw [setEntryLen, if_neg h]

theorem setEntry_not_mem {k : Nat} {v : Nat × RangeState} {l : List Entry}
    (h : ∀ e ∈ l, e.1 ≠ k) : setEntry k v l = l := by
  induction l with
  | nil => rfl
  | cons hd rest ih =>
    obtain ⟨k0, l0, s0⟩ := hd
    rw [setEntry_cons_ne (h (k0, l0, s0) (List.mem_cons_self _ _)),
      ih fun e he => h e (List.mem_cons_of_mem _ he)]

theorem chained_treeInsert_hole {lb k ln : Nat} {s : RangeState} {l : List Entry}
    (hc : Chained lb l) (hlb : lb ≤ k) (hpos : 0 < ln)
    (hd : ∀ e ∈ l, e.1 + e.2.1 ≤ k ∨ k + ln ≤ e.1) :
    Chained lb (treeInsert k (ln, s) l) := by
  induction l generalizing lb with
  | nil => exact ⟨hlb, hpos, trivial⟩
  | cons hd0 rest ih =>
    obtain ⟨k0, l0, s0⟩ := hd0
    have hd1 : k0 + l0 ≤ k ∨ k + ln ≤ k0 := hd (k0, l0, s0) (List.mem_cons_self _ _)
    have hp0 : 0 < l0 := hc.2.1
    by_cases h1 : k < k0
    · rw [treeInsert, if_pos h1]
      exact ⟨hlb, hpos, by omega, hp0, hc.2.2⟩
    · by_cases h2 : k = k0
      · omega
      · rw [treeInsert, if_neg h1, if_neg h2]
        refine ⟨hc.1, hp0, ih hc.2.2 (by omega) ?_⟩
        exact fun e he => hd e (List.mem_cons_of_mem _ he)

theorem covState_treeInsert_hole {lb k ln : Nat} {s : RangeState} {l : List Entry}
    (hc : Chained lb l) (hpos : 0 < ln)
    (hd : ∀ e ∈ l, e.1 + e.2.1 ≤ k ∨ k + ln ≤ e.1) :
    ∀ x, covState x (treeInsert k (ln, s) l) =
      if k ≤ x ∧ x < k + ln then some s else covState x l := by
  induction l generalizing lb with
  | nil => intro x; rw [treeInsert]; rfl
  | cons hd0 rest ih =>
    obtain ⟨k0, l0, s0⟩ := hd0
    have hd1 : k0 + l0 ≤ k ∨ k + ln ≤ k0 := hd (k0, l0, s0) (List.mem_cons_self _ _)
    have hp0 : 0 < l0 := hc.2.1
    intro x
    by_cases h1 : k < k0
    · rw [treeInsert, if_pos h1, covState]
    · by_cases h2 : k = k0
      · omega
      · rw [treeInsert, if_neg h1, if_neg h2, covState, covState]
        by_cases hx0 : k0 ≤ x ∧ x < k0 + l0
        · have hxk : ¬(k ≤ x ∧ x < k + ln) := by omega
          rw [if_pos hx0, if_neg hxk, if_pos hx0]
        · rw [if_neg hx0, if_neg hx0,
            ih hc.2.2 (fun e he => hd e (List.mem_cons_of_mem _ he)) x]

theorem chained_treeInsert_replace {lb k ln : Nat} {s s0 : RangeState} {l : List Entry}
    (hc : Chained lb l) (hm : (k, ln, s0) ∈ l) :
    Chained lb (treeInsert k (ln, s) l) := by
  induction l generalizing lb with
  | nil => cases hm
  | cons hd0 rest ih =>
    obtain ⟨k0, l0, s0'⟩ := hd0
    rcases List.mem_cons.mp hm with hm | hm
    · injection hm with e1 e2; injection e2 with e2 e3
      subst e1 e2 e3
      rw [treeInsert, if_neg (lt_irrefl _), if_pos rfl]
      exact hc
    · have hb : k0 + l0 ≤ k := (chained_bounds hc.2.2 _ hm).1
      have hp0 : 0 < l0 := hc.2.1
      rw [treeInsert, if_neg (by omega), if_neg (by omega)]
      exact ⟨hc.1, hp0, ih hc.2.2 hm⟩

theorem covState_treeInsert_replace {lb k ln : Nat} {s s0 : RangeState} {l : List Entry}
    (hc : Chained lb l) (hm : (k, ln, s0) ∈ l) :
    ∀ x, covState x (treeInsert k (ln, s) l) =
      if k ≤ x ∧ x < k + ln then some s else covState x l := by
  induction l generalizing lb with
  | nil => cases hm
  | cons hd0 rest ih =>
    obtain ⟨k0, l0, s0'⟩ := hd0
    intro x
    rcases List.mem_cons.mp hm with hm | hm
    · injection hm with e1 e2; injection e2 with e2 e3
      subst e1 e2 e3
      rw [treeInsert, if_neg (lt_irrefl _), if_pos rfl, covState, covState]
      by_cases hx : k ≤ x ∧ x < k + ln
      · rw [if_pos hx, if_pos hx]
      · rw [if_neg hx, if_neg hx, if_neg hx]
    · have hb : k0 + l0 ≤ k := (chained_bounds hc.2.2 _ hm).1
      have hp0 : 0 < l0 := hc.2.1
      have hpk : 0 < ln := (chained_bounds hc.2.2 _ hm).2
      rw [treeInsert, if_neg (by omega), if_neg (by omega), covState, covState]
      by_cases hx0 : k0 ≤ x ∧ x < k0 + l0
      · have hxk : ¬(k ≤ x ∧ x < k + ln) := by omega
        rw [if_pos hx0, if_neg hxk, if_pos hx0]
      · rw [if_neg hx0, if_neg hx0, ih hc.2.2 hm x]

theorem chain_split3 {lb : Nat} {u : List Entry} (h : Chained lb u) (a b : Nat) :
    ∃ P M S, u = P ++ M ++ S ∧ (∀ e ∈ P, e.1 < a) ∧
      (∀ e ∈ M, a ≤ e.1 ∧ e.1 < b) ∧ (∀ e ∈ S, b ≤ e.1) := by
  induction u generalizing lb with
  | nil => exact ⟨[], [], [], rfl, by simp, by simp, by simp⟩
  | cons hd rest ih =>
    obtain ⟨k, ln, s⟩ := hd
    obtain ⟨P, M, S, heq, hP, hM, hS⟩ := ih h.2.2
    have hrest : ∀ e ∈ rest, k + ln ≤ e.1 := fun e he => (chained_bounds h.2.2 e he).1
    have hpos : 0 < ln := h.2.1
    by_cases h1 : k < a
    · refine ⟨(k, ln, s) :: P, M, S, by rw [heq]; rfl, ?_, hM, hS⟩
      intro e he
      rcases List.mem_cons.mp he with he | he
      · subst he; exact h1
      · exact hP e he
    · by_cases h2 : k < b
      · have hPnil : P = [] := by
          rcases P with _ | ⟨p, P'⟩
          · rfl
          · exfalso
            have hp1 : p ∈ rest := by rw [heq]; simp
            have := hrest p hp1
            have := hP p (List.mem_cons_self _ _)
            omega
        subst hPnil
        refine ⟨[], (k, ln, s) :: M, S, by rw [heq]; rfl, by simp, ?_, hS⟩
        intro e he
        rcases List.mem_cons.mp he with he | he
        · subst he; exact ⟨by omega, h2⟩
        · exact hM e he
      · have hPnil : P = [] := by
          rcases P with _ | ⟨p, P'⟩
          · rfl
          · exfalso
            have hp1 : p ∈ rest := by rw [heq]; simp
            have := hrest p hp1
            have := hP p (List.mem_cons_self _ _)
            omega
        have hMnil : M = [] := by
          rcases M with _ | ⟨m, M'⟩
          · rfl
          · exfalso
            have hm1 : m ∈ rest := by rw [heq, hPnil]; simp
            have := hrest m hm1
            have := (hM m (List.mem_cons_self _ _)).2
            omega
        subst hPnil; subst hMnil
        refine ⟨[], [], (k, ln, s) :: S, by rw [heq]; rfl, by simp, by simp, ?_⟩
        intro e he
        rcases List.mem_cons.mp he with he | he
        · subst he; omega
        · exact hS e he

theorem any_eq_false_keys {o : Nat} {rest : List Entry}
    (h : ¬(rest.any fun e => decide (e.1 < o)) = true) : ∀ e ∈ rest, o ≤ e.1 := by
  intro e he
  by_contra hlt
  exact h (List.any_eq_true.mpr ⟨e, he, by simpa using by omega⟩)

theorem leftSplit_chained {lb o : Nat} {u : List Entry} (hc : Chained lb u) :
    Chained lb (leftSplit o u) := by
  induction u generalizing lb with
  | nil => trivial
  | cons hd rest ih =>
    obtain ⟨k, l, s⟩ := hd
    by_cases h1 : k < o
    · by_cases hany : (rest.any fun e => decide (e.1 < o)) = true
      · rw [leftSplit, if_pos h1, if_pos hany]
        exact ⟨hc.1, hc.2.1, ih hc.2.2⟩
      · rw [leftSplit, if_pos h1, if_neg hany]
        dsimp only
        have hpos : 0 < l := hc.2.1
        by_cases hov : 0 < (k + l) - o
        · rw [if_pos hov]
          have hkeys : ∀ e ∈ rest, o < e.1 := by
            intro e he
            have := (chained_bounds hc.2.2 e he).1
            omega
          rw [treeInsert_front hkeys]
          refine ⟨hc.1, by omega, by omega, hov, ?_⟩
          show Chained (o + ((k + l) - o)) rest
          exact hc.2.2.mono (by omega)
        · rw [if_neg hov]
          refine ⟨hc.1, by omega, ?_⟩
          show Chained (k + (l - ((k + l) - o))) rest
          exact hc.2.2.mono (by omega)
    · rw [leftSplit, if_neg h1]
      exact hc

theorem leftSplit_cov {lb o : Nat} {u : List Entry} (hc : Chained lb u) (x : Nat) :
    covState x (leftSplit o u) = covState x u := by
  induction u generalizing lb with
  | nil => rfl
  | cons hd rest ih =>
    obtain ⟨k, l, s⟩ := hd
    by_cases h1 : k < o
    · by_cases hany : (rest.any fun e => decide (e.1 < o)) = true
      · rw [leftSplit, if_pos h1, if_pos hany, covState, covState]
        by_cases hx : k ≤ x ∧ x < k + l
        · rw [if_pos hx, if_pos hx]
        · rw [if_neg hx, if_neg hx]
          exact ih hc.2.2
      · rw [leftSplit, if_pos h1, if_neg hany]
        dsimp only
        have hpos : 0 < l := hc.2.1
        by_cases hov : 0 < (k + l) - o
        · rw [if_pos hov]
          have hkeys : ∀ e ∈ rest, o < e.1 := by
            intro e he
            have := (chained_bounds hc.2.2 e he).1
            omega
          rw [treeInsert_front hkeys, covState, covState, covState]
          by_cases hx1 : k ≤ x ∧ x < k + (l - ((k + l) - o))
          · rw [if_pos hx1, if_pos (by omega : k ≤ x ∧ x < k + l)]
          · rw [if_neg hx1]
            by_cases hx2 : o ≤ x ∧ x < o + ((k + l) - o)
            · rw [if_pos hx2, if_pos (by omega : k ≤ x ∧ x < k + l)]
            · rw [if_neg hx2, if_neg (by omega : ¬(k ≤ x ∧ x < k + l))]
        · rw [if_neg hov, covState, covState]
          by_cases hx1 : k ≤ x ∧ x < k + (l - ((k + l) - o))
          · rw [if_pos hx1, if_pos (by omega : k ≤ x ∧ x < k + l)]
          · rw [if_neg hx1, if_neg (by omega : ¬(k ≤ x ∧ x < k + l))]
    · rw [leftSplit, if_neg h1]

theorem leftSplit_noStraddle {lb o : Nat} {u : List Entry} (hc : Chained lb u) :
    ∀ e ∈ leftSplit o u, e.1 < o → e.1 + e.2.1 ≤ o := by
  induction u generalizing lb with
  | nil => intro e he; cases he
  | cons hd rest ih =>
    obtain ⟨k, l, s⟩ := hd
    by_cases h1 : k < o
    · by_cases hany : (rest.any fun e => decide (e.1 < o)) = true
      · rw [leftSplit, if_pos h1, if_pos hany]
        intro e he hlt
        rcases List.mem_cons.mp he with he | he
        · subst he
          obtain ⟨e', he', hlt'⟩ := List.any_eq_true.mp hany
          have h2 : e'.1 < o := by simpa using hlt'
          have h3 : k + l ≤ e'.1 := (chained_bounds hc.2.2 e' he').1
          simp only
          omega
        · exact ih hc.2.2 e he hlt
      · rw [leftSplit, if_pos h1, if_neg hany]
        dsimp only
        have hpos : 0 < l := hc.2.1
        have hkeys := any_eq_false_keys hany
        by_cases hov : 0 < (k + l) - o
        · rw [if_pos hov]
          have hkeys' : ∀ e ∈ rest, o < e.1 := by
            intro e he
            have := (chained_bounds hc.2.2 e he).1
            omega
          rw [treeInsert_front hkeys']
          intro e he hlt
          rcases List.mem_cons.mp he with he | he
          · subst he; simp only; omega
          · rcases List.mem_cons.mp he with he | he
            · subst he; simp only at hlt; omega
            · have := hkeys' e he; omega
        · rw [if_neg hov]
          intro e he hlt
          rcases List.mem_cons.mp he with he | he
          · subst he; simp only; omega
          · have := hkeys e he; omega
    · rw [leftSplit, if_neg h1]
      intro e he hlt
      rcases List.mem_cons.mp he with he | he
      · subst he; simp only at hlt; omega
      · have h2 : lb ≤ k := hc.1
        have h3 : k + l ≤ e.1 := (chained_bounds hc.2.2 e he).1
        have hpos : 0 < l := hc.2.1
        omega

theorem leftSplit_id {o : Nat} {u : List Entry}
    (h : ∀ e ∈ u, e.1 < o → e.1 + e.2.1 ≤ o) : leftSplit o u = u := by
  induction u with
  | nil => rfl
  | cons hd rest ih =>
    obtain ⟨k, l, s⟩ := hd
    by_cases h1 : k < o
    · by_cases hany : (rest.any fun e => decide (e.1 < o)) = true
      · rw [leftSplit, if_pos h1, if_pos hany,
          ih fun e he => h e (List.mem_cons_of_mem _ he)]
      · rw [leftSplit, if_pos h1, if_neg hany]
        dsimp only
        have hend : k + l ≤ o := h (k, l, s) (List.mem_cons_self _ _) h1
        have hov : ¬(0 < (k + l) - o) := by omega
        rw [if_neg hov]
        have he : l - ((k + l) - o) = l := by omega
        rw [he]
    · rw [leftSplit, if_neg h1]

theorem chained_append_of {lb mid : Nat} {X Y : List Entry}
    (hX : Chained lb X) (hY : Chained mid Y)
    (hend : ∀ e ∈ X, e.1 + e.2.1 ≤ mid) (hlb : lb ≤ mid) :
    Chained lb (X ++ Y) := by
  induction X generalizing lb with
  | nil => exact hY.mono hlb
  | cons hd rest ih =>
    obtain ⟨k, l, s⟩ := hd
    exact ⟨hX.1, hX.2.1,
      ih hX.2.2 (fun e he => hend e (List.mem_cons_of_mem _ he))
        (hend (k, l, s) (List.mem_cons_self _ _))⟩

theorem mem_ite_singleton {c e : Entry} {P : Prop} [Decidable P]
    (h : c ∈ if P then [e] else ([] : List Entry)) : P ∧ c = e := by
  split at h
  · exact ⟨by assumption, List.mem_singleton.mp h⟩
  · cases h

theorem mem_ite_nil_left {c e : Entry} {P : Prop} [Decidable P]
    (h : c ∈ if P then ([] : List Entry) else [e]) : ¬P ∧ c = e := by
  split at h
  · cases h
  · exact ⟨by assumption, List.mem_singleton.mp h⟩

theorem middleWalk_spec (st : RangeState) (ms : List Entry) :
    ∀ (tf0 tl0 : Nat) (v0 : List Entry) (ler0 : Option (Nat × Nat × Nat × RangeState)),
      Chained tf0 ms → (∀ e ∈ ms, e.1 < tf0 + tl0) →
      ∃ tf tl Δ ler,
        middleWalk st ms tf0 tl0 v0 ler0 = (tf, tl, v0 ++ Δ, ler) ∧
        tf + tl = tf0 + tl0 ∧
        tf0 ≤ tf ∧
        Chained tf0 Δ ∧
        (∀ c ∈ Δ, c.2.2 = st ∧ c.1 + c.2.1 ≤ tf) ∧
        (∀ c ∈ Δ,
          (∃ l s, (c.1, l, s) ∈ ms ∧ c.2.1 = min l (tf0 + tl0 - c.1) ∧
            (st = Sent → s ≠ Acked)) ∨
          (∀ e ∈ ms, e.1 + e.2.1 ≤ c.1 ∨ c.1 + c.2.1 ≤ e.1)) ∧
        (∀ x, tf0 ≤ x → x < tf →
          (∃ c ∈ Δ, c.1 ≤ x ∧ x < c.1 + c.2.1) ∨
          (∃ e ∈ ms, e.1 ≤ x ∧ x < e.1 + e.2.1 ∧ e.2.2 = Acked ∧ st = Sent)) ∧
        ((ler = ler0 ∧ ∀ e ∈ ms, e.1 + e.2.1 ≤ tf) ∨
         (∃ k l s, (k, l, s) ∈ ms ∧
            ler = some (k, tf0 + tl0 - k, l - (tf0 + tl0 - k), s) ∧
            tf0 + tl0 < k + l ∧ tl = 0 ∧ tf = tf0 + tl0 ∧
            (∀ e ∈ ms, e.1 ≠ k → e.1 + e.2.1 ≤ tf0 + tl0))) := by
  induction ms with
  | nil =>
    intro tf0 tl0 v0 ler0 hchain hkeys
    refine ⟨tf0, tl0, [], ler0, by simp [middleWalk], rfl, le_refl _, trivial,
      by simp, by simp, ?_, Or.inl ⟨rfl, by simp⟩⟩
    intro x h1 h2
    omega
  | cons hd rest ih =>
    obtain ⟨off, len, state⟩ := hd
    intro tf0 tl0 v0 ler0 hchain hkeys
    have htfo : tf0 ≤ off := hchain.1
    have hlpos : 0 < len := hchain.2.1
    have hofflt : off < tf0 + tl0 := hkeys (off, len, state) (List.mem_cons_self _ _)
    simp only [middleWalk]
    have hoo : tf0 + (off - tf0) = off := by omega
    rw [hoo]
    set tl1 := tl0 - (off - tf0) with htl1
    set sub := min len tl1 with hsub
    set ost : List Entry := if tf0 < off then [(tf0, off - tf0, st)] else [] with host
    set mst : List Entry := if st = Sent ∧ state = Acked then [] else [(off, sub, st)]
      with hmst
    have hV : (if st = Sent ∧ state = Acked then
          (if tf0 < off then v0 ++ [(tf0, off - tf0, st)] else v0)
        else (if tf0 < off then v0 ++ [(tf0, off - tf0, st)] else v0) ++ [(off, sub, st)])
        = v0 ++ (ost ++ mst) := by
      by_cases h1 : tf0 < off <;> by_cases h2 : st = Sent ∧ state = Acked <;>
        simp [host, hmst, h1, h2]
    rw [hV]
    have hsum : (off + sub) + (tl1 - sub) = tf0 + tl0 := by omega
    have hsubpos : 0 < sub := by omega
    obtain ⟨tf, tl, Δ', ler, heq, hsum', htf', hchainΔ', hprops', hmh', hcov', hler'⟩ :=
      ih (off + sub) (tl1 - sub) (v0 ++ (ost ++ mst))
        (if 0 < len - sub then some (off, sub, len - sub, state) else ler0)
        (hchain.2.2.mono (by omega))
        (fun e he => by
          rw [hsum]
          exact hkeys e (List.mem_cons_of_mem _ he))
    rw [heq]
    have hostlem : ∀ c ∈ ost, tf0 < off ∧ c = (tf0, off - tf0, st) := by
      intro c hc
      exact mem_ite_singleton (host ▸ hc)
    have hmstlem : ∀ c ∈ mst, ¬(st = Sent ∧ state = Acked) ∧ c = (off, sub, st) := by
      intro c hc
      exact mem_ite_nil_left (hmst ▸ hc)
    have hΔnil_of_rem : 0 < len - sub → Δ' = [] := by
      intro hrem
      have hrestnil : rest = [] := by
        apply List.eq_nil_iff_forall_not_mem.mpr
        intro e' he'
        have h1 := (chained_bounds hchain.2.2 e' he').1
        have h2 := hkeys e' (List.mem_cons_of_mem _ he')
        omega
      rw [hrestnil, middleWalk, Prod.mk.injEq, Prod.mk.injEq, Prod.mk.injEq] at heq
      have hl := congrArg List.length heq.2.2.1
      simp only [List.length_append] at hl
      exact List.eq_nil_of_length_eq_zero (by omega)
    refine ⟨tf, tl, ost ++ (mst ++ Δ'), ler, by simp, by omega, by omega, ?_, ?_, ?_, ?_, ?_⟩
    · -- chain of the produced chunks
      have hcm : Chained off (mst ++ Δ') := by
        by_cases h2 : st = Sent ∧ state = Acked
        · rw [hmst, if_pos h2, List.nil_append]
          exact hchainΔ'.mono (by omega)
        · rw [hmst, if_neg h2, List.singleton_append]
          exact ⟨le_refl off, hsubpos, hchainΔ'⟩
      by_cases h1 : tf0 < off
      · rw [host, if_pos h1, List.singleton_append]
        refine ⟨le_refl tf0, by omega, ?_⟩
        show Chained (tf0 + (off - tf0)) (mst ++ Δ')
        rw [hoo]
        exact hcm
      · rw [host, if_neg h1, List.nil_append]
        exact hcm.mono (by omega)
    · -- state and end bound of every chunk
      intro c hc
      rcases List.mem_append.mp hc with hc | hc
      · obtain ⟨h1, rfl⟩ := hostlem c hc
        exact ⟨rfl, by simp only; omega⟩
      · rcases List.mem_append.mp hc with hc | hc
        · obtain ⟨h2, rfl⟩ := hmstlem c hc
          exact ⟨rfl, by simp only; omega⟩
        · exact hprops' c hc
    · -- every chunk matches an entry of ms or lies in a hole of ms
      intro c hc
      rcases List.mem_append.mp hc with hc | hc
      · obtain ⟨h1, rfl⟩ := hostlem c hc
        right
        intro e he
        rcases List.mem_cons.mp he with rfl | he
        · right; simp only; omega
        · right
          have h3 : off + len ≤ e.1 := (chained_bounds hchain.2.2 e he).1
          simp only
          omega
      · rcases List.mem_append.mp hc with hc | hc
        · obtain ⟨h2, rfl⟩ := hmstlem c hc
          left
          refine ⟨len, state, List.mem_cons_self _ _, by simp only; omega, ?_⟩
          intro hst hsa
          exact h2 ⟨hst, hsa⟩
        · rcases hmh' c hc with ⟨l', s', hm, hlen, hss⟩ | hhole
          · left
            refine ⟨l', s', List.mem_cons_of_mem _ hm, ?_, hss⟩
            rw [hlen, hsum]
          · right
            intro e he
            rcases List.mem_cons.mp he with rfl | he
            · left
              have hck : off + sub ≤ c.1 := (chained_bounds hchainΔ' c hc).1
              by_cases hrem : 0 < len - sub
              · exact absurd (hΔnil_of_rem hrem ▸ hc) (List.not_mem_nil c)
              · simp only; omega
            · exact hhole e he
    · -- coverage of the walked interval
      intro x hx1 hx2
      by_cases hxo : x < off
      · left
        have h1 : tf0 < off := by omega
        refine ⟨(tf0, off - tf0, st), ?_, by simp only; omega⟩
        apply List.mem_append.mpr
        left
        rw [host, if_pos h1]
        exact List.mem_singleton.mpr rfl
      · by_cases hxs : x < off + sub
        · by_cases h2 : st = Sent ∧ state = Acked
          · right
            exact ⟨(off, len, state), List.mem_cons_self _ _,
              by simp only; omega, by simp only; omega, h2.2, h2.1⟩
          · left
            refine ⟨(off, sub, st), ?_, by simp only; omega⟩
            apply List.mem_append.mpr
            right
            apply List.mem_append.mpr
            left
            rw [hmst, if_neg h2]
            exact List.mem_singleton.mpr rfl
        · rcases hcov' x (by omega) hx2 with ⟨c, hc, hcx⟩ | ⟨e, he, hex⟩
          · left
            exact ⟨c, List.mem_append.mpr (Or.inr (List.mem_append.mpr (Or.inr hc))), hcx⟩
          · right
            exact ⟨e, List.mem_cons_of_mem _ he, hex⟩
    · -- the last_existing_remaining bookkeeping
      by_cases hrem : 0 < len - sub
      · right
        have hrestnil : rest = [] := by
          apply List.eq_nil_iff_forall_not_mem.mpr
          intro e' he'
          have h1 := (chained_bounds hchain.2.2 e' he').1
          have h2 := hkeys e' (List.mem_cons_of_mem _ he')
          omega
        rw [hrestnil, middleWalk, Prod.mk.injEq, Prod.mk.injEq, Prod.mk.injEq] at heq
        obtain ⟨he1, he2, _, he4⟩ := heq
        refine ⟨off, len, state, List.mem_cons_self _ _, ?_, by omega, by omega, by omega, ?_⟩
        · rw [← he4, if_pos hrem]
          have h5 : sub = tf0 + tl0 - off := by omega
          rw [h5]
        · intro e he hne
          rcases List.mem_cons.mp he with rfl | he
          · exact absurd rfl hne
          · rw [hrestnil] at he
            cases he
      · rcases hler' with ⟨hla, hlab⟩ | ⟨k, l', s', hk, hleq, hkp, htl0', htf0', hother⟩
        · left
          rw [if_neg hrem] at hla
          refine ⟨hla, ?_⟩
          intro e he
          rcases List.mem_cons.mp he with rfl | he
          · simp only; omega
          · exact hlab e he
        · right
          rw [hsum] at hleq hkp htf0'
          refine ⟨k, l', s', List.mem_cons_of_mem _ hk, hleq, hkp, htl0', htf0', ?_⟩
          intro e he hne
          rcases List.mem_cons.mp he with rfl | he
          · simp only; omega
          · have := hother e he hne
            rw [hsum] at this
            exact this

theorem covState_none_elim {x : Nat} {l : List Entry} (h : covState x l = none) :
    ∀ e ∈ l, ¬(e.1 ≤ x ∧ x < e.1 + e.2.1) := by
  induction l with
  | nil => intro e he; cases he
  | cons hd rest ih =>
    obtain ⟨k, ln, s⟩ := hd
    intro e he
    by_cases hcv : k ≤ x ∧ x < k + ln
    · rw [covState, if_pos hcv] at h
      cases h
    · rw [covState, if_neg hcv] at h
      rcases List.mem_cons.mp he with rfl | he
      · exact hcv
      · exact ih h e he

theorem chained_setEntry_shrink {lb k l sub : Nat} {s s0 : RangeState} {u : List Entry}
    (hc : Chained lb u) (hm : (k, l, s0) ∈ u) (hpos : 0 < sub) (hle : sub ≤ l) :
    Chained lb (setEntry k (sub, s) u) := by
  induction u generalizing lb with
  | nil => cases hm
  | cons hd rest ih =>
    obtain ⟨k0, l0, s0'⟩ := hd
    by_cases h0 : k0 = k
    · rw [setEntry, if_pos h0]
      rcases List.mem_cons.mp hm with hm | hm
      · injection hm with e1 e2; injection e2 with e2 e3
        refine ⟨hc.1, hpos, ?_⟩
        show Chained (k0 + sub) rest
        exact hc.2.2.mono (by omega)
      · exfalso
        have hb := (chained_bounds hc.2.2 _ hm).1
        have := hc.2.1
        omega
    · rw [setEntry, if_neg h0]
      rcases List.mem_cons.mp hm with hm | hm
      · injection hm with e1 _
        exact absurd e1.symm h0
      · exact ⟨hc.1, hc.2.1, ih hc.2.2 hm⟩

theorem covState_setEntry_shrink {lb k l sub : Nat} {s s0 : RangeState} {u : List Entry}
    (hc : Chained lb u) (hm : (k, l, s0) ∈ u) (_hle : sub ≤ l) :
    ∀ x, covState x (setEntry k (sub, s) u) =
      if k ≤ x ∧ x < k + sub then some s
      else if k ≤ x ∧ x < k + l then none
      else covState x u := by
  induction u generalizing lb with
  | nil => cases hm
  | cons hd rest ih =>
    obtain ⟨k0, l0, s0'⟩ := hd
    intro x
    by_cases h0 : k0 = k
    · subst h0
      have hhd : l = l0 ∧ s0 = s0' := by
        rcases List.mem_cons.mp hm with hm | hm
        · injection hm with e1 e2; injection e2 with e2 e3
          exact ⟨e2, e3⟩
        · exfalso
          have hb := (chained_bounds hc.2.2 _ hm).1
          have := hc.2.1
          omega
      obtain ⟨rfl, rfl⟩ := hhd
      rw [setEntry, if_pos rfl, covState, covState]
      by_cases hx1 : k0 ≤ x ∧ x < k0 + sub
      · rw [if_pos hx1, if_pos hx1]
      · rw [if_neg hx1, if_neg hx1]
        by_cases hx2 : k0 ≤ x ∧ x < k0 + l
        · rw [if_pos hx2]
          exact covState_lt_lb hc.2.2 (by omega)
        · rw [if_neg hx2, if_neg hx2]
    · rw [setEntry, if_neg h0, covState, covState]
      have hmr : (k, l, s0) ∈ rest := by
        rcases List.mem_cons.mp hm with hm | hm
        · injection hm with e1 _
          exact absurd e1.symm h0
        · exact hm
      have hb : k0 + l0 ≤ k := (chained_bounds hc.2.2 _ hmr).1
      by_cases hx0 : k0 ≤ x ∧ x < k0 + l0
      · have hn1 : ¬(k ≤ x ∧ x < k + sub) := by omega
        have hn2 : ¬(k ≤ x ∧ x < k + l) := by omega
        rw [if_pos hx0, if_neg hn1, if_neg hn2, if_pos hx0]
      · rw [if_neg hx0, if_neg hx0, ih hc.2.2 hmr x]

theorem mem_setEntry_self {lb k l : Nat} {s0 : RangeState} {u : List Entry}
    (hc : Chained lb u) (hm : (k, l, s0) ∈ u) {v : Nat × RangeState} :
    (k, v.1, v.2) ∈ setEntry k v u := by
  induction u generalizing lb with
  | nil => cases hm
  | cons hd rest ih =>
    obtain ⟨k0, l0, s0'⟩ := hd
    by_cases h0 : k0 = k
    · subst h0
      rw [setEntry, if_pos rfl]
      exact List.mem_cons_self _ _
    · rw [setEntry, if_neg h0]
      have hmr : (k, l, s0) ∈ rest := by
        rcases List.mem_cons.mp hm with hm | hm
        · injection hm with e1 _
          exact absurd e1.symm h0
        · exact hm
      exact List.mem_cons_of_mem _ (ih hc.2.2 hmr)

theorem mem_setEntry_of_mem {k : Nat} {v : Nat × RangeState} {u : List Entry}
    {e : Entry} (hne : e.1 ≠ k) (hm : e ∈ u) : e ∈ setEntry k v u := by
  induction u with
  | nil => cases hm
  | cons hd rest ih =>
    obtain ⟨k0, l0, s0'⟩ := hd
    by_cases h0 : k0 = k
    · rw [setEntry, if_pos h0]
      rcases List.mem_cons.mp hm with hm | hm
      · exfalso; apply hne; rw [hm, h0]
      · exact List.mem_cons_of_mem _ hm
    · rw [setEntry, if_neg h0]
      rcases List.mem_cons.mp hm with hm | hm
      · exact hm ▸ List.mem_cons_self _ _
      · exact List.mem_cons_of_mem _ (ih hm)

theorem mem_setEntry_elim_chained {lb k : Nat} {v : Nat × RangeState} {u : List Entry}
    {e : Entry} (hc : Chained lb u) (hm : e ∈ setEntry k v u) :
    e = (k, v.1, v.2) ∨ (e ∈ u ∧ e.1 ≠ k) := by
  induction u generalizing lb with
  | nil => cases hm
  | cons hd rest ih =>
    obtain ⟨k0, l0, s0'⟩ := hd
    by_cases h0 : k0 = k
    · rw [setEntry, if_pos h0] at hm
      rcases List.mem_cons.mp hm with hm | hm
      · exact Or.inl (by rw [hm, h0])
      · right
        refine ⟨List.mem_cons_of_mem _ hm, ?_⟩
        have hb := (chained_bounds hc.2.2 _ hm).1
        have := hc.2.1
        omega
    · rw [setEntry, if_neg h0] at hm
      rcases List.mem_cons.mp hm with hm | hm
      · subst hm
        exact Or.inr ⟨List.mem_cons_self _ _, by simp only; exact h0⟩
      · rcases ih hc.2.2 hm with h | ⟨h, hne⟩
        · exact Or.inl h
        · exact Or.inr ⟨List.mem_cons_of_mem _ h, hne⟩

theorem mem_setEntry_elim {k : Nat} {v : Nat × RangeState} {u : List Entry}
    {e : Entry} (hm : e ∈ setEntry k v u) : e = (k, v.1, v.2) ∨ e ∈ u := by
  induction u with
  | nil => cases hm
  | cons hd rest ih =>
    obtain ⟨k0, l0, s0'⟩ := hd
    by_cases h0 : k0 = k
    · rw [setEntry, if_pos h0] at hm
      rcases List.mem_cons.mp hm with hm | hm
      · exact Or.inl (by rw [hm, h0])
      · exact Or.inr (List.mem_cons_of_mem _ hm)
    · rw [setEntry, if_neg h0] at hm
      rcases List.mem_cons.mp hm with hm | hm
      · exact Or.inr (hm ▸ List.mem_cons_self _ _)
      · rcases ih hm with h | h
        · exact Or.inl h
        · exact Or.inr (List.mem_cons_of_mem _ h)

theorem rightSplit_spec {k l sub : Nat} {s : RangeState} {u : List Entry}
    (hc : Chained 0 u) (hm : (k, l, s) ∈ u) (hpos : 0 < sub) (hlt : sub < l) :
    Chained 0 (treeInsert (k + sub) (l - sub, s) (setEntry k (sub, s) u)) ∧
    (∀ x, covState x (treeInsert (k + sub) (l - sub, s) (setEntry k (sub, s) u)) =
      covState x u) ∧
    (k, sub, s) ∈ treeInsert (k + sub) (l - sub, s) (setEntry k (sub, s) u) ∧
    (∀ e ∈ u, e.1 ≠ k → e.1 ≠ k + sub →
      e ∈ treeInsert (k + sub) (l - sub, s) (setEntry k (sub, s) u)) ∧
    (∀ e ∈ treeInsert (k + sub) (l - sub, s) (setEntry k (sub, s) u),
      e = (k, sub, s) ∨ e = (k + sub, l - sub, s) ∨ e ∈ u) := by
  have hcs : Chained 0 (setEntry k (sub, s) u) :=
    chained_setEntry_shrink hc hm hpos (by omega)
  have hdisj : ∀ e ∈ setEntry k (sub, s) u,
      e.1 + e.2.1 ≤ k + sub ∨ (k + sub) + (l - sub) ≤ e.1 := by
    intro e he
    rcases mem_setEntry_elim_chained hc he with rfl | ⟨heu, hek⟩
    · left; simp only; omega
    · obtain ⟨k', l', s'⟩ := e
      simp only at hek ⊢
      rcases Nat.lt_or_ge k' k with hlt' | hge
      · left
        have := chained_pairwise hc _ _ _ _ _ _ heu hm hlt'
        omega
      · right
        have hlt'' : k < k' := by omega
        have := chained_pairwise hc _ _ _ _ _ _ hm heu hlt''
        omega
  refine ⟨chained_treeInsert_hole hcs (Nat.zero_le _) (by omega) hdisj, ?_, ?_, ?_, ?_⟩
  · intro x
    rw [covState_treeInsert_hole hcs (by omega) hdisj x,
      covState_setEntry_shrink hc hm (by omega) x]
    by_cases hx1 : k + sub ≤ x ∧ x < (k + sub) + (l - sub)
    · rw [if_pos hx1]
      have h2 : ¬(k ≤ x ∧ x < k + sub) := by omega
      rw [covState_of_mem hc hm (by omega) (by omega)]
    · rw [if_neg hx1]
      by_cases hx2 : k ≤ x ∧ x < k + sub
      · rw [if_pos hx2, covState_of_mem hc hm (by omega) (by omega)]
      · rw [if_neg hx2]
        by_cases hx3 : k ≤ x ∧ x < k + l
        · omega
        · rw [if_neg hx3]
  · exact mem_treeInsert_of_mem (by omega) (mem_setEntry_self hc hm)
  · intro e he hek hek2
    exact mem_treeInsert_of_mem hek2 (mem_setEntry_of_mem hek he)
  · intro e he
    rcases mem_treeInsert_elim he with rfl | he
    · exact Or.inr (Or.inl rfl)
    · rcases mem_setEntry_elim he with rfl | he
      · exact Or.inl rfl
      · exact Or.inr (Or.inr he)

theorem fits_insert_preserved {tree : List Entry} {k ln : Nat} {sc : RangeState}
    {c' : Entry} (hfits : Fits tree c') (hlt : k + ln ≤ c'.1) (hpos : 0 < ln) :
    Fits (treeInsert k (ln, sc) tree) c' := by
  rcases hfits with ⟨s, hm⟩ | hhole
  · exact Or.inl ⟨s, mem_treeInsert_of_mem (by show c'.1 ≠ k; omega) hm⟩
  · right
    intro e he
    rcases mem_treeInsert_elim he with rfl | he
    · left
      show k + ln ≤ c'.1
      exact hlt
    · exact hhole e he

theorem foldl_insert_spec {st : RangeState} {Δ : List Entry} :
    ∀ {tree : List Entry} {lb : Nat},
      Chained 0 tree → Chained lb Δ →
      (∀ c ∈ Δ, c.2.2 = st) → (∀ c ∈ Δ, Fits tree c) →
      Chained 0 (Δ.foldl (fun tr e => treeInsert e.1 (e.2.1, e.2.2) tr) tree) ∧
      ∀ x,
        ((∃ c ∈ Δ, c.1 ≤ x ∧ x < c.1 + c.2.1) →
          covState x (Δ.foldl (fun tr e => treeInsert e.1 (e.2.1, e.2.2) tr) tree) =
            some st) ∧
        (¬(∃ c ∈ Δ, c.1 ≤ x ∧ x < c.1 + c.2.1) →
          covState x (Δ.foldl (fun tr e => treeInsert e.1 (e.2.1, e.2.2) tr) tree) =
            covState x tree) := by
  induction Δ with
  | nil =>
    intro tree lb htree _ _ _
    refine ⟨htree, fun x => ⟨?_, fun _ => rfl⟩⟩
    rintro ⟨c, hc, _⟩
    cases hc
  | cons c Δ' ih =>
    intro tree lb htree hΔ hst hfits
    obtain ⟨k, ln, sc⟩ := c
    have hcpos : 0 < ln := hΔ.2.1
    have hcfits : Fits tree (k, ln, sc) := hfits _ (List.mem_cons_self _ _)
    have hchained1 : Chained 0 (treeInsert k (ln, sc) tree) := by
      rcases hcfits with ⟨s', hm⟩ | hhole
      · exact chained_treeInsert_replace htree hm
      · exact chained_treeInsert_hole htree (Nat.zero_le _) hcpos hhole
    have hcov1 : ∀ x, covState x (treeInsert k (ln, sc) tree) =
        if k ≤ x ∧ x < k + ln then some sc else covState x tree := by
      rcases hcfits with ⟨s', hm⟩ | hhole
      · exact covState_treeInsert_replace htree hm
      · exact covState_treeInsert_hole htree hcpos hhole
    have hfits' : ∀ c' ∈ Δ', Fits (treeInsert k (ln, sc) tree) c' := by
      intro c' hc'
      have hb := (chained_bounds hΔ.2.2 c' hc').1
      exact fits_insert_preserved (hfits c' (List.mem_cons_of_mem _ hc')) hb hcpos
    obtain ⟨hchain2, hcov2⟩ := ih hchained1 hΔ.2.2 (fun c' hc' =>
      hst c' (List.mem_cons_of_mem _ hc')) hfits'
    rw [List.foldl_cons]
    refine ⟨hchain2, fun x => ⟨?_, ?_⟩⟩
    · rintro ⟨c', hc', hcx⟩
      rcases List.mem_cons.mp hc' with rfl | hc'
      · by_cases hΔx : ∃ c'' ∈ Δ', c''.1 ≤ x ∧ x < c''.1 + c''.2.1
        · exact (hcov2 x).1 hΔx
        · rw [(hcov2 x).2 hΔx, hcov1 x, if_pos hcx]
          rw [← hst _ (List.mem_cons_self _ _)]
      · exact (hcov2 x).1 ⟨c', hc', hcx⟩
    · intro hnone
      have hn1 : ¬∃ c'' ∈ Δ', c''.1 ≤ x ∧ x < c''.1 + c''.2.1 := by
        intro ⟨c'', hc'', hx⟩
        exact hnone ⟨c'', List.mem_cons_of_mem _ hc'', hx⟩
      have hn2 : ¬(k ≤ x ∧ x < k + ln) := by
        intro hx
        exact hnone ⟨(k, ln, sc), List.mem_cons_self _ _, hx⟩
      rw [(hcov2 x).2 hn1, hcov1 x, if_neg hn2]

theorem head_of_treeGet_zero {u : List Entry} {L : Nat} {s : RangeState}
    (hc : Chained 0 u) (h : treeGet 0 u = some (L, s)) :
    ∃ rest, u = (0, L, s) :: rest := by
  cases u with
  | nil => cases h
  | cons hd rest =>
    obtain ⟨k0, l0, s0⟩ := hd
    by_cases h0 : k0 = 0
    · subst h0
      rw [treeGet, if_pos rfl] at h
      injection h with h; injection h with h1 h2
      subst h1; subst h2
      exact ⟨rest, rfl⟩
    · rw [treeGet, if_neg h0] at h
      have hm := treeGet_mem h
      have hb : k0 + l0 ≤ 0 := (chained_bounds hc.2.2 _ hm).1
      have := hc.2.1
      omega

theorem foldl_treeRemove_tiles {lb : Nat} {tiles suffix' : List Entry}
    (h : Chained lb (tiles ++ suffix')) :
    (tiles.map (fun e => e.1)).foldl (fun t k => treeRemove k t) (tiles ++ suffix')
      = suffix' := by
  induction tiles generalizing lb with
  | nil => rfl
  | cons hd tiles' ih =>
    obtain ⟨k1, l1, s1⟩ := hd
    rw [List.map_cons, List.foldl_cons]
    rw [List.cons_append, treeRemove, if_pos rfl]
    exact ih h.2.2

theorem coalesceLoop_spec {w : List Entry} :
    ∀ (fuel : Nat) (suffix : List Entry) (nl : Nat) (acc : List Nat),
      Chained nl suffix → 0 < nl →
      (∀ m, nl ≤ m → treeGet m w = treeGet m suffix) →
      suffix.length < fuel →
      ∃ tiles suffix' nlF,
        suffix = tiles ++ suffix' ∧
        coalesceLoop w fuel nl acc = (nlF, acc ++ tiles.map (fun e => e.1)) ∧
        nl ≤ nlF ∧
        Chained nlF suffix' ∧
        (∀ e ∈ tiles, e.2.2 = Acked ∧ nl ≤ e.1 ∧ e.1 + e.2.1 ≤ nlF ∧ 0 < e.1) ∧
        (∀ x, nl ≤ x → x < nlF → covState x tiles = some Acked) ∧
        (∀ l', treeGet nlF w ≠ some (l', Acked)) ∧
        (∀ m, nlF ≤ m → treeGet m w = treeGet m suffix') := by
  intro fuel
  induction fuel with
  | zero =>
    intro suffix nl acc _ _ _ hlen
    omega
  | succ f ih =>
    intro suffix nl acc hchain hnl hget hlen
    cases suffix with
    | nil =>
      have hw : treeGet nl w = none := by rw [hget nl (le_refl nl)]; rfl
      refine ⟨[], [], nl, rfl, ?_, le_refl _, trivial, by simp, by omega, ?_, ?_⟩
      · rw [coalesceLoop, hw]
        simp
      · intro l' h
        rw [hw] at h
        cases h
      · intro m hm
        exact hget m hm
    | cons hd sfx =>
      obtain ⟨k1, l1, s1⟩ := hd
      have hk1 : nl ≤ k1 := hchain.1
      have hl1 : 0 < l1 := hchain.2.1
      by_cases hkeq : k1 = nl
      · subst hkeq
        have hw : treeGet k1 w = some (l1, s1) := by
          rw [hget k1 (le_refl k1), treeGet, if_pos rfl]
        cases s1 with
        | Sent =>
          refine ⟨[], (k1, l1, Sent) :: sfx, k1, rfl, ?_, le_refl _, hchain, by simp,
            by omega, ?_, ?_⟩
          · rw [coalesceLoop, hw]
            simp
          · intro l' h
            rw [hw] at h
            cases h
          · intro m hm
            exact hget m hm
        | Acked =>
          have hget' : ∀ m, k1 + l1 ≤ m → treeGet m w = treeGet m sfx := by
            intro m hm
            rw [hget m (by omega), treeGet, if_neg (by omega)]
          have hlen' : sfx.length < f := by
            simp only [List.length_cons] at hlen
            omega
          obtain ⟨tiles', sfx', nlF, hsplit, hloop, hle, hchain', htprops, htcov,
            hnack, hget''⟩ :=
            ih sfx (k1 + l1) (acc ++ [k1]) hchain.2.2 (by omega) hget' hlen'
          refine ⟨(k1, l1, Acked) :: tiles', sfx', nlF,
            by rw [hsplit, List.cons_append], ?_, by omega, hchain', ?_, ?_, hnack, hget''⟩
          · rw [coalesceLoop, hw]
            show coalesceLoop w f (k1 + l1) (acc ++ [k1]) =
              (nlF, acc ++ List.map (fun e => e.1) ((k1, l1, Acked) :: tiles'))
            rw [hloop, List.map_cons]
            simp [List.append_assoc]
          · intro e he
            rcases List.mem_cons.mp he with rfl | he
            · refine ⟨rfl, by simp only; omega, ?_, by simp only; omega⟩
              show k1 + l1 ≤ nlF
              omega
            · have := htprops e he
              exact ⟨this.1, by omega, this.2.2.1, this.2.2.2⟩
          · intro x hx1 hx2
            rw [covState]
            by_cases hxw : k1 ≤ x ∧ x < k1 + l1
            · rw [if_pos hxw]
            · rw [if_neg hxw]
              exact htcov x (by omega) hx2
      · have hw : treeGet nl w = none := by
          rw [hget nl (le_refl nl), treeGet, if_neg hkeq]
          apply treeGet_eq_none
          intro e he
          have hb : k1 + l1 ≤ e.1 := (chained_bounds hchain.2.2 e he).1
          omega
        refine ⟨[], (k1, l1, s1) :: sfx, nl, rfl, ?_, le_refl _, hchain, by simp,
          by omega, ?_, ?_⟩
        · rw [coalesceLoop, hw]
          simp
        · intro l' h
          rw [hw] at h
          cases h
        · intro m hm
          exact hget m hm

theorem coalesce_spec {u : List Entry} (hc : Chained 0 u) :
    Chained 0 (coalesce_acked_from_zero u) ∧
    (∀ x, covState x (coalesce_acked_from_zero u) = covState x u) ∧
    PrefixCoalesced (coalesce_acked_from_zero u) := by
  rcases hg : treeGet 0 u with _ | ⟨L, s⟩
  · have hid : coalesce_acked_from_zero u = u := by
      rw [coalesce_acked_from_zero, hg]
    refine ⟨by rw [hid]; exact hc, fun x => by rw [hid], ?_⟩
    intro L l' h0
    rw [hid, hg] at h0
    cases h0
  · cases s with
    | Sent =>
      have hid : coalesce_acked_from_zero u = u := by
        rw [coalesce_acked_from_zero, hg]
      refine ⟨by rw [hid]; exact hc, fun x => by rw [hid], ?_⟩
      intro L' l' h0
      rw [hid, hg] at h0
      injection h0 with h0
      injection h0 with _ h0
      cases h0
    | Acked =>
      obtain ⟨rest, rfl⟩ := head_of_treeGet_zero hc hg
      have hL : 0 < L := hc.2.1
      have hchain_rest : Chained L rest := hc.2.2.mono (by omega)
      have hget : ∀ m, L ≤ m → treeGet m ((0, L, Acked) :: rest) = treeGet m rest := by
        intro m hm
        rw [treeGet, if_neg (by omega)]
      obtain ⟨tiles, sfx', nlF, hsplit, hloop, hle, hchain', htprops, htcov,
        hnack, hget''⟩ :=
        coalesceLoop_spec (((0, L, Acked) :: rest).length + 1) rest L []
          hchain_rest hL hget (by simp only [List.length_cons]; omega)
      have hres : coalesce_acked_from_zero ((0, L, Acked) :: rest) =
          (0, nlF, Acked) :: sfx' := by
        simp only [coalesce_acked_from_zero, hg, hloop, List.nil_append]
        by_cases hLF : L = nlF
        · have htn : tiles = [] := by
            apply List.eq_nil_iff_forall_not_mem.mpr
            intro e he
            have h1 := htprops e he
            have hmem : e ∈ rest := by
              rw [hsplit]
              exact List.mem_append.mpr (Or.inl he)
            have h2 : 0 < e.2.1 := (chained_bounds hchain_rest e hmem).2
            omega
          subst htn
          rw [if_neg (by omega)]
          simp only [List.map_nil, List.foldl_nil]
          rw [hsplit, hLF]
          simp only [List.nil_append]
        · rw [if_pos (by omega)]
          rw [setEntryLen, if_pos rfl]
          rw [hsplit]
          rw [foldl_treeRemove_cons, foldl_treeRemove_tiles (hsplit ▸ hchain_rest)]
          intro kk hkk
          simp only [List.mem_map] at hkk
          obtain ⟨e, he, rfl⟩ := hkk
          have := (htprops e he).2.2.2
          simp only
          omega
      refine ⟨?_, ?_, ?_⟩
      · rw [hres]
        exact ⟨Nat.zero_le _, by omega, hchain'.mono (by omega)⟩
      · intro x
        rw [hres, hsplit, covState, covState]
        by_cases hx1 : 0 ≤ x ∧ x < 0 + nlF
        · rw [if_pos hx1]
          by_cases hx2 : 0 ≤ x ∧ x < 0 + L
          · rw [if_pos hx2]
          · rw [if_neg hx2, covState_append, htcov x (by omega) (by omega)]
        · rw [if_neg hx1]
          have hx2 : ¬(0 ≤ x ∧ x < 0 + L) := by omega
          rw [if_neg hx2, covState_append]
          have hcv : covState x tiles = none := by
            apply covState_eq_none
            intro e he
            have := htprops e he
            omega
          rw [hcv]
      · intro L' l' h0
        rw [hres] at h0 ⊢
        rw [treeGet, if_pos rfl] at h0
        injection h0 with h0
        injection h0 with h1 _
        subst h1
        rw [treeGet, if_neg (by omega)]
        intro hcon
        apply hnack l'
        rw [hget'' nlF (le_refl _)]
        exact hcon

theorem chunk_range_on_edges_eq {tree : List Entry} {off len : Nat} {st : RangeState}
    {tf tl : Nat} {vv : List Entry} {ler : Option (Nat × Nat × Nat × RangeState)}
    (hw : middleWalk st ((leftSplit off tree).filter
        (fun e => decide (off ≤ e.1 ∧ e.1 < off + len))) off len [] none
      = (tf, tl, vv, ler)) :
    chunk_range_on_edges tree off len st =
      ((if 0 < tl then vv ++ [(tf, tl, st)] else vv),
        rightSplit (leftSplit off tree) ler) := by
  simp only [chunk_range_on_edges]
  rw [hw]

theorem mark_range_eq {t : RangeTracker} {off len : Nat} {st : RangeState}
    (h : ¬len = 0) {v tree2 : List Entry}
    (hp : chunk_range_on_edges t.used off len st = (v, tree2)) :
    mark_range t off len st =
      { used := coalesce_acked_from_zero
          (v.foldl (fun tr e => treeInsert e.1 (e.2.1, e.2.2) tr) tree2),
        cached := none } := by
  rw [mark_range, if_neg h, hp]

theorem mark_core_spec {u tree2 Δfull : List Entry} {off endR : Nat} {st : RangeState}
    (hchained2 : Chained 0 tree2)
    (hcov2 : ∀ x, covState x tree2 = covState x u)
    (hchainedΔ : Chained off Δfull)
    (hstΔ : ∀ c ∈ Δfull, c.2.2 = st)
    (hfits : ∀ c ∈ Δfull, Fits tree2 c)
    (hspan : ∀ c ∈ Δfull, c.1 + c.2.1 ≤ endR)
    (hcover : ∀ x, off ≤ x → x < endR → ¬(st = Sent ∧ covState x u = some Acked) →
       ∃ c ∈ Δfull, c.1 ≤ x ∧ x < c.1 + c.2.1)
    (hnc : ∀ c ∈ Δfull, ∀ x, c.1 ≤ x → x < c.1 + c.2.1 →
       st = Sent → covState x u ≠ some Acked) :
    Chained 0 (coalesce_acked_from_zero
      (Δfull.foldl (fun tr e => treeInsert e.1 (e.2.1, e.2.2) tr) tree2)) ∧
    PrefixCoalesced (coalesce_acked_from_zero
      (Δfull.foldl (fun tr e => treeInsert e.1 (e.2.1, e.2.2) tr) tree2)) ∧
    ∀ x, covState x (coalesce_acked_from_zero
      (Δfull.foldl (fun tr e => treeInsert e.1 (e.2.1, e.2.2) tr) tree2)) =
      if off ≤ x ∧ x < endR then
        (if st = Sent ∧ covState x u = some Acked then some Acked else some st)
      else covState x u := by
  obtain ⟨hch3, hcov3⟩ := foldl_insert_spec hchained2 hchainedΔ hstΔ hfits
  obtain ⟨hch4, hcov4, hpc4⟩ := coalesce_spec hch3
  refine ⟨hch4, hpc4, ?_⟩
  intro x
  rw [hcov4]
  by_cases hin : off ≤ x ∧ x < endR
  · rw [if_pos hin]
    by_cases hprot : st = Sent ∧ covState x u = some Acked
    · rw [if_pos hprot]
      have hnone : ¬∃ c ∈ Δfull, c.1 ≤ x ∧ x < c.1 + c.2.1 := by
        rintro ⟨c, hc, h1, h2⟩
        exact hnc c hc x h1 h2 hprot.1 hprot.2
      rw [(hcov3 x).2 hnone, hcov2 x]
      exact hprot.2
    · rw [if_neg hprot]
      exact (hcov3 x).1 (hcover x hin.1 hin.2 hprot)
  · rw [if_neg hin]
    have hnone : ¬∃ c ∈ Δfull, c.1 ≤ x ∧ x < c.1 + c.2.1 := by
      rintro ⟨c, hc, h1, h2⟩
      have hsp := hspan c hc
      have hb := (chained_bounds hchainedΔ c hc).1
      omega
    rw [(hcov3 x).2 hnone, hcov2 x]

theorem mark_range_spec {t : RangeTracker} {off len : Nat} {st : RangeState}
    (hc : Chained 0 t.used) (hlen : 0 < len) :
    Chained 0 (mark_range t off len st).used ∧
    PrefixCoalesced (mark_range t off len st).used ∧
    ∀ x, covState x (mark_range t off len st).used =
      if off ≤ x ∧ x < off + len then
        (if st = Sent ∧ covState x t.used = some Acked then some Acked else some st)
      else covState x t.used := by
  have hc1 : Chained 0 (leftSplit off t.used) := leftSplit_chained hc
  have hcov1 : ∀ x, covState x (leftSplit off t.used) = covState x t.used :=
    fun x => leftSplit_cov hc x
  have hns : ∀ e ∈ leftSplit off t.used, e.1 < off → e.1 + e.2.1 ≤ off :=
    leftSplit_noStraddle hc
  have hmem_ms : ∀ e, e ∈ (leftSplit off t.used).filter
      (fun e => decide (off ≤ e.1 ∧ e.1 < off + len)) ↔
      e ∈ leftSplit off t.used ∧ off ≤ e.1 ∧ e.1 < off + len := by
    intro e
    simp [List.mem_filter]
  have hchain_ms : Chained off ((leftSplit off t.used).filter
      (fun e => decide (off ≤ e.1 ∧ e.1 < off + len))) := by
    apply chained_strengthen (chained_filter _ hc1)
    intro e he
    exact ((hmem_ms e).mp he).2.1
  obtain ⟨tf, tl, Δ, ler, heq, hsum, htf, hchainΔ, hprops, hmh, hcov, hler⟩ :=
    middleWalk_spec st _ off len [] none hchain_ms
      (fun e he => ((hmem_ms e).mp he).2.2)
  rw [List.nil_append] at heq
  have hchunk := @chunk_range_on_edges_eq t.used off len st tf tl Δ ler heq
  have hmark := mark_range_eq (by omega) hchunk
  rw [hmark]
  -- facts independent of the right split
  have hmem_full : ∀ c ∈ (if 0 < tl then Δ ++ [(tf, tl, st)] else Δ),
      c ∈ Δ ∨ (0 < tl ∧ c = (tf, tl, st)) := by
    intro c hcf
    by_cases htl : 0 < tl
    · rw [if_pos htl] at hcf
      rcases List.mem_append.mp hcf with h | h
      · exact Or.inl h
      · exact Or.inr ⟨htl, List.mem_singleton.mp h⟩
    · rw [if_neg htl] at hcf
      exact Or.inl hcf
  have hmem_full' : ∀ c ∈ Δ, c ∈ (if 0 < tl then Δ ++ [(tf, tl, st)] else Δ) := by
    intro c hcd
    by_cases htl : 0 < tl
    · rw [if_pos htl]
      exact List.mem_append.mpr (Or.inl hcd)
    · rw [if_neg htl]
      exact hcd
  have hchainfull : Chained off (if 0 < tl then Δ ++ [(tf, tl, st)] else Δ) := by
    by_cases htl : 0 < tl
    · rw [if_pos htl]
      exact chained_append_of hchainΔ ⟨le_refl tf, htl, trivial⟩
        (fun c hc' => (hprops c hc').2) htf
    · rw [if_neg htl]
      exact hchainΔ
  have hstfull : ∀ c ∈ (if 0 < tl then Δ ++ [(tf, tl, st)] else Δ), c.2.2 = st := by
    intro c hcf
    rcases hmem_full c hcf with h | ⟨_, rfl⟩
    · exact (hprops c h).1
    · rfl
  have hspanfull : ∀ c ∈ (if 0 < tl then Δ ++ [(tf, tl, st)] else Δ),
      c.1 + c.2.1 ≤ off + len := by
    intro c hcf
    rcases hmem_full c hcf with h | ⟨_, rfl⟩
    · have := (hprops c h).2
      omega
    · simp only
      omega
  have hends_or : 0 < tl → ∀ e ∈ (leftSplit off t.used).filter
      (fun e => decide (off ≤ e.1 ∧ e.1 < off + len)), e.1 + e.2.1 ≤ tf := by
    intro htl
    rcases hler with ⟨_, hends⟩ | ⟨k, l', s', _, _, _, htl0, _, _⟩
    · exact hends
    · omega
  have hcoverfull : ∀ x, off ≤ x → x < off + len →
      ¬(st = Sent ∧ covState x t.used = some Acked) →
      ∃ c ∈ (if 0 < tl then Δ ++ [(tf, tl, st)] else Δ),
        c.1 ≤ x ∧ x < c.1 + c.2.1 := by
    intro x hx1 hx2 hprot
    by_cases hxtf : x < tf
    · rcases hcov x hx1 hxtf with ⟨c, hcm, hcx⟩ | ⟨e, he, hex⟩
      · exact ⟨c, hmem_full' c hcm, hcx⟩
      · exfalso
        apply hprot
        refine ⟨hex.2.2.2, ?_⟩
        rw [← hcov1 x]
        obtain ⟨k2, l2, s2⟩ := e
        have hmt : (k2, l2, s2) ∈ leftSplit off t.used := ((hmem_ms _).mp he).1
        have hs2 : s2 = Acked := hex.2.2.1
        subst hs2
        exact covState_of_mem hc1 hmt hex.1 hex.2.1
    · have htl : 0 < tl := by omega
      refine ⟨(tf, tl, st), ?_, by simp only; omega⟩
      rw [if_pos htl]
      exact List.mem_append.mpr (Or.inr (List.mem_singleton.mpr rfl))
  have hncfull : ∀ c ∈ (if 0 < tl then Δ ++ [(tf, tl, st)] else Δ),
      ∀ x, c.1 ≤ x → x < c.1 + c.2.1 → st = Sent →
        covState x t.used ≠ some Acked := by
    intro c hcf x hx1 hx2 hsent hack
    have hackt : covState x (leftSplit off t.used) = some Acked := by
      rw [hcov1 x]; exact hack
    obtain ⟨k2, l2, hm2, hk2a, hk2b⟩ := covState_some_elim hackt
    rcases hmem_full c hcf with hcm | ⟨htl, rfl⟩
    · have hcb := (chained_bounds hchainΔ c hcm).1
      have hce := (hprops c hcm).2
      rcases hmh c hcm with ⟨l'', s'', hm_ms, hclen, hss⟩ | hhole
      · have hsne : s'' ≠ Acked := hss hsent
        have hmt : (c.1, l'', s'') ∈ leftSplit off t.used := ((hmem_ms _).mp hm_ms).1
        have hcv : covState x (leftSplit off t.used) = some s'' := by
          apply covState_of_mem hc1 hmt hx1
          have hle : c.2.1 ≤ l'' := by rw [hclen]; omega
          omega
        rw [hackt] at hcv
        injection hcv with hcv
        exact hsne hcv.symm
      · by_cases hp1 : k2 < off
        · have := hns _ hm2 hp1
          simp only at this
          omega
        · by_cases hp2 : k2 < off + len
          · have hmm : (k2, l2, Acked) ∈ (leftSplit off t.used).filter
                (fun e => decide (off ≤ e.1 ∧ e.1 < off + len)) :=
              (hmem_ms _).mpr ⟨hm2, by omega, hp2⟩
            rcases hhole _ hmm with h | h
            · simp only at h; omega
            · simp only at h; omega
          · omega
    · by_cases hp1 : k2 < off
      · have := hns _ hm2 hp1
        simp only at this
        omega
      · by_cases hp2 : k2 < off + len
        · have hmm : (k2, l2, Acked) ∈ (leftSplit off t.used).filter
              (fun e => decide (off ≤ e.1 ∧ e.1 < off + len)) :=
            (hmem_ms _).mpr ⟨hm2, by omega, hp2⟩
          have := hends_or htl _ hmm
          simp only at this hx1 hx2
          omega
        · simp only at hx1 hx2
          omega
  -- case split on the right split
  rcases hler with ⟨hlnone, hends⟩ | ⟨k, l', s', hk, hleq, hkp, htl0, htf0, hother⟩
  · -- no entry extended past the range: the right split is the identity
    rw [hlnone]
    have hfitsfull : ∀ c ∈ (if 0 < tl then Δ ++ [(tf, tl, st)] else Δ),
        Fits (rightSplit (leftSplit off t.used) none) c := by
      intro c hcf
      show Fits (leftSplit off t.used) c
      rcases hmem_full c hcf with hcm | ⟨htl, rfl⟩
      · have hcb := (chained_bounds hchainΔ c hcm).1
        have hce := (hprops c hcm).2
        rcases hmh c hcm with ⟨l'', s'', hm_ms, hclen, _⟩ | hhole
        · left
          refine ⟨s'', ?_⟩
          have hend : c.1 + l'' ≤ tf := by
            have := hends _ hm_ms
            simp only at this
            exact this
          have hl : c.2.1 = l'' := by rw [hclen]; omega
          rw [hl]
          exact ((hmem_ms _).mp hm_ms).1
        · right
          intro e he
          by_cases he1 : e.1 < off
          · left
            have := hns e he he1
            omega
          · by_cases he2 : e.1 < off + len
            · exact hhole e ((hmem_ms e).mpr ⟨he, by omega, he2⟩)
            · right
              omega
      · right
        intro e he
        by_cases he1 : e.1 < off
        · left
          have := hns e he he1
          simp only
          omega
        · by_cases he2 : e.1 < off + len
          · left
            have := hends _ ((hmem_ms e).mpr ⟨he, by omega, he2⟩)
            simp only
            omega
          · right
            simp only
            omega
    exact mark_core_spec hc1 hcov1 hchainfull hstfull hfitsfull hspanfull
      hcoverfull hncfull
  · -- an entry extended past the range: the right split breaks it in two
    rw [hleq]
    have hkm : (k, l', s') ∈ leftSplit off t.used := ((hmem_ms _).mp hk).1
    have hkb : off ≤ k ∧ k < off + len := ((hmem_ms _).mp hk).2
    have hsubpos : 0 < off + len - k := by omega
    have hsublt : off + len - k < l' := by omega
    obtain ⟨hrs_ch, hrs_cov, hrs_mem1, hrs_mem2, hrs_elim⟩ :=
      rightSplit_spec hc1 hkm hsubpos hsublt
    show Chained 0 (coalesce_acked_from_zero _) ∧ _
    have hcov2 : ∀ x, covState x (rightSplit (leftSplit off t.used)
        (some (k, off + len - k, l' - (off + len - k), s'))) = covState x t.used := by
      intro x
      simp only [rightSplit]
      rw [hrs_cov x, hcov1 x]
    have hfitsfull : ∀ c ∈ (if 0 < tl then Δ ++ [(tf, tl, st)] else Δ),
        Fits (rightSplit (leftSplit off t.used)
          (some (k, off + len - k, l' - (off + len - k), s'))) c := by
      intro c hcf
      simp only [rightSplit]
      rcases hmem_full c hcf with hcm | ⟨htl, rfl⟩
      · have hcb := (chained_bounds hchainΔ c hcm).1
        have hce := (hprops c hcm).2
        rcases hmh c hcm with ⟨l'', s'', hm_ms, hclen, _⟩ | hhole
        · by_cases hck : c.1 = k
          · obtain ⟨he1, he2⟩ := chained_unique hchain_ms _ _ _ _ _ (hck ▸ hm_ms) hk
            left
            refine ⟨s', ?_⟩
            have hl : c.2.1 = off + len - k := by
              rw [hclen, he1, hck]
              omega
            rw [hl, hck]
            exact hrs_mem1
          · left
            refine ⟨s'', ?_⟩
            have hend : c.1 + l'' ≤ off + len := by
              have := hother (c.1, l'', s'') hm_ms (by simpa using hck)
              simpa using this
            have hl : c.2.1 = l'' := by rw [hclen]; omega
            rw [hl]
            apply hrs_mem2 _ ((hmem_ms _).mp hm_ms).1 (by simpa using hck)
            have := ((hmem_ms _).mp hm_ms).2.2
            simp only
            omega
        · right
          intro e he
          rcases hrs_elim e he with rfl | rfl | he1
          · rcases hhole (k, l', s') hk with h | h
            · left
              simp only at h ⊢
              omega
            · right
              simp only at h ⊢
              omega
          · right
            simp only
            omega
          · by_cases he1' : e.1 < off
            · left
              have := hns e he1 he1'
              omega
            · by_cases he2' : e.1 < off + len
              · exact hhole e ((hmem_ms e).mpr ⟨he1, by omega, he2'⟩)
              · right
                omega
      · omega
    exact mark_core_spec (by simp only [rightSplit]; exact hrs_ch)
      hcov2 hchainfull hstfull hfitsfull hspanfull hcoverfull hncfull

theorem unmarkLoop_facts {off len : Nat} :
    ∀ (aff : List Entry) (tr0 : List Nat) (ta0 : Option Entry),
      (∀ kk ∈ tr0, kk ∈ (unmarkLoop off len aff tr0 ta0).1) ∧
      (∀ kk ∈ (unmarkLoop off len aff tr0 ta0).1,
        kk ∈ tr0 ∨ ∃ l s, (kk, l, s) ∈ aff ∧ s ≠ Acked ∧ off ≤ kk) ∧
      (∀ a, (unmarkLoop off len aff tr0 ta0).2.1 = some a →
        ta0 = some a ∨
        ∃ k l s, (k, l, s) ∈ aff ∧ s ≠ Acked ∧ off ≤ k ∧
          a = (off + len, (k + l) - (off + len), s) ∧ off + len < k + l ∧
          k ∈ (unmarkLoop off len aff tr0 ta0).1) ∧
      (∀ p, (unmarkLoop off len aff tr0 ta0).2.2 = some p →
        ∃ k l s, (k, l, s) ∈ aff ∧ k < off ∧ off < k + l ∧ s ≠ Acked ∧
          p = (k, off - k)) := by
  intro aff
  induction aff with
  | nil =>
    intro tr0 ta0
    refine ⟨fun kk hk => hk, fun kk hk => Or.inl hk, fun a ha => Or.inl ha,
      fun p hp => ?_⟩
    cases hp
  | cons hd rest ih =>
    obtain ⟨k, l, s⟩ := hd
    intro tr0 ta0
    by_cases h1 : k < off
    · rw [unmarkLoop, if_pos h1]
      refine ⟨fun kk hk => hk, fun kk hk => Or.inl hk, fun a ha => Or.inl ha,
        fun p hp => ?_⟩
      by_cases h2 : k + l > off ∧ s ≠ Acked
      · rw [if_pos h2] at hp
        injection hp with hp
        exact ⟨k, l, s, List.mem_cons_self _ _, h1, by omega, h2.2, hp.symm⟩
      · rw [if_neg h2] at hp
        cases hp
    · by_cases h2 : s = Acked
      · rw [unmarkLoop, if_neg h1, if_pos h2]
        obtain ⟨ihm, ihr, iha, ihp⟩ := ih tr0 ta0
        refine ⟨ihm, ?_, ?_, ?_⟩
        · intro kk hk
          rcases ihr kk hk with h | ⟨l', s', hm, hs, hk'⟩
          · exact Or.inl h
          · exact Or.inr ⟨l', s', List.mem_cons_of_mem _ hm, hs, hk'⟩
        · intro a ha
          rcases iha a ha with h | ⟨k', l', s', hm, hs, hk', he, hgt, hin⟩
          · exact Or.inl h
          · exact Or.inr ⟨k', l', s', List.mem_cons_of_mem _ hm, hs, hk', he, hgt, hin⟩
        · intro p hp
          obtain ⟨k', l', s', hm, h1', h2', h3', h4'⟩ := ihp p hp
          exact ⟨k', l', s', List.mem_cons_of_mem _ hm, h1', h2', h3', h4'⟩
      · rw [unmarkLoop, if_neg h1, if_neg h2]
        obtain ⟨ihm, ihr, iha, ihp⟩ := ih (tr0 ++ [k])
          (if k + l > off + len then some (off + len, (k + l) - (off + len), s)
           else ta0)
        refine ⟨?_, ?_, ?_, ?_⟩
        · intro kk hk
          exact ihm kk (List.mem_append.mpr (Or.inl hk))
        · intro kk hk
          rcases ihr kk hk with h | ⟨l', s', hm, hs, hk'⟩
          · rcases List.mem_append.mp h with h | h
            · exact Or.inl h
            · right
              have : kk = k := List.mem_singleton.mp h
              subst this
              exact ⟨l, s, List.mem_cons_self _ _, h2, by omega⟩
          · exact Or.inr ⟨l', s', List.mem_cons_of_mem _ hm, hs, hk'⟩
        · intro a ha
          rcases iha a ha with h | ⟨k', l', s', hm, hs, hk', he, hgt, hin⟩
          · by_cases h3 : k + l > off + len
            · rw [if_pos h3] at h
              injection h with h
              refine Or.inr ⟨k, l, s, List.mem_cons_self _ _, h2, by omega,
                h.symm, by omega, ?_⟩
              exact ihm k (List.mem_append.mpr (Or.inr (List.mem_singleton.mpr rfl)))
            · rw [if_neg h3] at h
              exact Or.inl h
          · exact Or.inr ⟨k', l', s', List.mem_cons_of_mem _ hm, hs, hk', he, hgt, hin⟩
        · intro p hp
          obtain ⟨k', l', s', hm, h1', h2', h3', h4'⟩ := ihp p hp
          exact ⟨k', l', s', List.mem_cons_of_mem _ hm, h1', h2', h3', h4'⟩

theorem unmarkLoop_all {off len : Nat} :
    ∀ (aff : List Entry) (tr0 : List Nat) (ta0 : Option Entry),
      (∀ e ∈ aff, off ≤ e.1 ∧ e.1 + e.2.1 ≤ off + len) →
      unmarkLoop off len aff tr0 ta0 =
        (tr0 ++ (aff.filter (fun e => decide (¬e.2.2 = Acked))).map (fun e => e.1),
          ta0, none) := by
  intro aff
  induction aff with
  | nil =>
    intro tr0 ta0 _
    simp [unmarkLoop]
  | cons hd rest ih =>
    obtain ⟨k, l, s⟩ := hd
    intro tr0 ta0 hb
    have hk := hb (k, l, s) (List.mem_cons_self _ _)
    simp only at hk
    rw [unmarkLoop, if_neg (by omega)]
    by_cases h2 : s = Acked
    · rw [if_pos h2]
      rw [ih tr0 ta0 (fun e he => hb e (List.mem_cons_of_mem _ he))]
      rw [List.filter_cons, if_neg (by simp [h2])]
    · rw [if_neg h2]
      rw [if_neg (by omega)]
      rw [ih (tr0 ++ [k]) ta0 (fun e he => hb e (List.mem_cons_of_mem _ he))]
      rw [List.filter_cons, if_pos (by simp [h2])]
      simp [List.append_assoc]

theorem unmark_range_eq {t : RangeTracker} {off len : Nat} (h : ¬len = 0)
    {tr : List Nat} {ta : Option Entry} {pm : Option (Nat × Nat)}
    (hl : unmarkLoop off len
        ((t.used.filter (fun e => decide (e.1 < off + len))).reverse) [] none
      = (tr, ta, pm)) :
    unmark_range t off len =
      { used := addTree (tr.foldl (fun trr kk => treeRemove kk trr)
          (trimTree t.used pm)) ta,
        cached := none } := by
  simp only [unmark_range, if_neg h, hl]
  rcases ta with _ | ⟨k1, l1, s1⟩ <;> rcases pm with _ | ⟨k2, n2⟩ <;> rfl

theorem chained_setEntryLen_shrink {lb k l nl : Nat} {s0 : RangeState} {u : List Entry}
    (hc : Chained lb u) (hm : (k, l, s0) ∈ u) (hpos : 0 < nl) (hle : nl ≤ l) :
    Chained lb (setEntryLen k nl u) := by
  induction u generalizing lb with
  | nil => cases hm
  | cons hd rest ih =>
    obtain ⟨k0, l0, s0'⟩ := hd
    by_cases h0 : k0 = k
    · rw [setEntryLen, if_pos h0]
      rcases List.mem_cons.mp hm with hm | hm
      · injection hm with e1 e2; injection e2 with e2 e3
        refine ⟨hc.1, hpos, ?_⟩
        show Chained (k0 + nl) rest
        exact hc.2.2.mono (by omega)
      · exfalso
        have hb := (chained_bounds hc.2.2 _ hm).1
        have := hc.2.1
        omega
    · rw [setEntryLen, if_neg h0]
      rcases List.mem_cons.mp hm with hm | hm
      · injection hm with e1 _
        exact absurd e1.symm h0
      · exact ⟨hc.1, hc.2.1, ih hc.2.2 hm⟩

theorem mem_setEntryLen_elim {k nl : Nat} {u : List Entry} {e : Entry}
    (hm : e ∈ setEntryLen k nl u) :
    (∃ s0, e = (k, nl, s0) ∧ ∃ l0, (k, l0, s0) ∈ u) ∨ e ∈ u := by
  induction u with
  | nil => cases hm
  | cons hd rest ih =>
    obtain ⟨k0, l0, s0'⟩ := hd
    by_cases h0 : k0 = k
    · rw [setEntryLen, if_pos h0] at hm
      rcases List.mem_cons.mp hm with hm | hm
      · subst h0
        exact Or.inl ⟨s0', hm, l0, List.mem_cons_self _ _⟩
      · exact Or.inr (List.mem_cons_of_mem _ hm)
    · rw [setEntryLen, if_neg h0] at hm
      rcases List.mem_cons.mp hm with hm | hm
      · exact Or.inr (hm ▸ List.mem_cons_self _ _)
      · rcases ih hm with ⟨s0, he, l1, hm1⟩ | hm1
        · exact Or.inl ⟨s0, he, l1, List.mem_cons_of_mem _ hm1⟩
        · exact Or.inr (List.mem_cons_of_mem _ hm1)

theorem filterAcked_setEntryLen {k nl : Nat} {u : List Entry}
    (h : ∀ e ∈ u, e.1 = k → ¬e.2.2 = Acked) :
    (setEntryLen k nl u).filter (fun e => decide (e.2.2 = Acked)) =
      u.filter (fun e => decide (e.2.2 = Acked)) := by
  induction u with
  | nil => rfl
  | cons hd rest ih =>
    obtain ⟨k0, l0, s0⟩ := hd
    by_cases h0 : k0 = k
    · rw [setEntryLen, if_pos h0]
      have hs : ¬s0 = Acked := h (k0, l0, s0) (List.mem_cons_self _ _) h0
      rw [List.filter_cons, List.filter_cons, if_neg (by simpa using hs),
        if_neg (by simpa using hs)]
    · rw [setEntryLen, if_neg h0, List.filter_cons, List.filter_cons]
      rw [ih fun e he hek => h e (List.mem_cons_of_mem _ he) hek]

theorem filterAcked_treeRemove {k : Nat} {u : List Entry}
    (h : ∀ e ∈ u, e.1 = k → ¬e.2.2 = Acked) :
    (treeRemove k u).filter (fun e => decide (e.2.2 = Acked)) =
      u.filter (fun e => decide (e.2.2 = Acked)) := by
  induction u with
  | nil => rfl
  | cons hd rest ih =>
    obtain ⟨k0, l0, s0⟩ := hd
    by_cases h0 : k = k0
    · rw [treeRemove, if_pos h0]
      have hs : ¬s0 = Acked := h (k0, l0, s0) (List.mem_cons_self _ _) h0.symm
      rw [List.filter_cons, if_neg (by simpa using hs)]
    · rw [treeRemove, if_neg h0, List.filter_cons, List.filter_cons]
      rw [ih fun e he hek => h e (List.mem_cons_of_mem _ he) hek]

theorem filterAcked_foldl_treeRemove {ks : List Nat} :
    ∀ {u : List Entry},
      (∀ kk ∈ ks, ∀ e ∈ u, e.1 = kk → ¬e.2.2 = Acked) →
      (ks.foldl (fun t k => treeRemove k t) u).filter
          (fun e => decide (e.2.2 = Acked)) =
        u.filter (fun e => decide (e.2.2 = Acked)) := by
  induction ks with
  | nil => intro u _; rfl
  | cons k ks' ih =>
    intro u h
    rw [List.foldl_cons]
    rw [ih fun kk hkk e he hek =>
      h kk (List.mem_cons_of_mem _ hkk) e (mem_treeRemove he) hek]
    exact filterAcked_treeRemove fun e he hek => h k (List.mem_cons_self _ _) e he hek

theorem filterAcked_treeInsert_sent {k l : Nat} {s : RangeState} {u : List Entry}
    (hs : ¬s = Acked) (h : ∀ e ∈ u, e.1 = k → ¬e.2.2 = Acked) :
    (treeInsert k (l, s) u).filter (fun e => decide (e.2.2 = Acked)) =
      u.filter (fun e => decide (e.2.2 = Acked)) := by
  induction u with
  | nil =>
    rw [treeInsert, List.filter_cons, if_neg (by simpa using hs)]
  | cons hd rest ih =>
    obtain ⟨k0, l0, s0⟩ := hd
    by_cases h1 : k < k0
    · rw [treeInsert, if_pos h1, List.filter_cons, if_neg (by simpa using hs)]
    · by_cases h2 : k = k0
      · rw [treeInsert, if_neg h1, if_pos h2]
        have hs0 : ¬s0 = Acked := h (k0, l0, s0) (List.mem_cons_self _ _) h2.symm
        rw [List.filter_cons, List.filter_cons, if_neg (by simpa using hs),
          if_neg (by simpa using hs0)]
      · rw [treeInsert, if_neg h1, if_neg h2, List.filter_cons, List.filter_cons]
        rw [ih fun e he hek => h e (List.mem_cons_of_mem _ he) hek]

theorem key_not_mem_treeRemove {lb k : Nat} {u : List Entry} (hc : Chained lb u) :
    ∀ e ∈ treeRemove k u, e.1 ≠ k := by
  induction u generalizing lb with
  | nil => intro e he; cases he
  | cons hd rest ih =>
    obtain ⟨k0, l0, s0⟩ := hd
    by_cases h0 : k = k0
    · rw [treeRemove, if_pos h0]
      intro e he
      have hb := (chained_bounds hc.2.2 e he).1
      have := hc.2.1
      omega
    · rw [treeRemove, if_neg h0]
      intro e he
      rcases List.mem_cons.mp he with rfl | he
      · simp only
        exact fun hk => h0 hk.symm
      · exact ih hc.2.2 e he

theorem mem_foldl_treeRemove {ks : List Nat} :
    ∀ {u : List Entry} {e : Entry},
      e ∈ ks.foldl (fun t k => treeRemove k t) u → e ∈ u := by
  induction ks with
  | nil => intro u e he; exact he
  | cons k ks' ih =>
    intro u e he
    rw [List.foldl_cons] at he
    exact mem_treeRemove (ih he)

theorem key_not_mem_foldl_treeRemove {ks : List Nat} :
    ∀ {lb : Nat} {u : List Entry}, Chained lb u → ∀ kk ∈ ks,
      ∀ e ∈ ks.foldl (fun t k => treeRemove k t) u, e.1 ≠ kk := by
  induction ks with
  | nil => intro lb u _ kk hkk; cases hkk
  | cons k ks' ih =>
    intro lb u hc kk hkk e he
    rw [List.foldl_cons] at he
    rcases List.mem_cons.mp hkk with rfl | hkk
    · exact key_not_mem_treeRemove hc e (mem_foldl_treeRemove he)
    · exact ih (chained_treeRemove hc) kk hkk e he

theorem chained_foldl_treeRemove {ks : List Nat} :
    ∀ {lb : Nat} {u : List Entry}, Chained lb u →
      Chained lb (ks.foldl (fun t k => treeRemove k t) u) := by
  induction ks with
  | nil => intro lb u hc; exact hc
  | cons k ks' ih =>
    intro lb u hc
    rw [List.foldl_cons]
    exact ih (chained_treeRemove hc)

theorem unmark_range_spec {t : RangeTracker} {off len : Nat} (hc : Chained 0 t.used) :
    Chained 0 (unmark_range t off len).used ∧
    (unmark_range t off len).used.filter (fun e => decide (e.2.2 = Acked)) =
      t.used.filter (fun e => decide (e.2.2 = Acked)) := by
  by_cases hlen : len = 0
  · rw [unmark_range, if_pos hlen]
    exact ⟨hc, rfl⟩
  · rcases hl : unmarkLoop off len
      ((t.used.filter (fun e => decide (e.1 < off + len))).reverse) [] none
      with ⟨tr, ta, pm⟩
    have hequ := unmark_range_eq hlen hl
    have hmem_aff : ∀ (e : Entry),
        e ∈ (t.used.filter (fun e => decide (e.1 < off + len))).reverse ↔
          e ∈ t.used ∧ e.1 < off + len := by
      intro e
      simp [List.mem_reverse, List.mem_filter]
    have hfr : ∀ kk ∈ tr, ∃ l s, (kk, l, s) ∈ t.used ∧ s ≠ Acked ∧
        off ≤ kk ∧ kk < off + len := by
      intro kk hk
      have h0 := (unmarkLoop_facts _ [] none).2.1 kk (by rw [hl]; exact hk)
      rcases h0 with h0 | ⟨l, s, hm, hs, hk'⟩
      · cases h0
      · obtain ⟨hm1, hm2⟩ := (hmem_aff _).mp hm
        exact ⟨l, s, hm1, hs, hk', hm2⟩
    have hfa : ∀ a, ta = some a →
        ∃ k l s, (k, l, s) ∈ t.used ∧ s ≠ Acked ∧ off ≤ k ∧ k < off + len ∧
          a = (off + len, (k + l) - (off + len), s) ∧ off + len < k + l ∧ k ∈ tr := by
      intro a ha
      have h0 := (unmarkLoop_facts _ [] none).2.2.1 a (by rw [hl]; exact ha)
      rcases h0 with h0 | ⟨k, l, s, hm, hs, hk', he, hgt, hin⟩
      · cases h0
      · obtain ⟨hm1, hm2⟩ := (hmem_aff _).mp hm
        refine ⟨k, l, s, hm1, hs, hk', hm2, he, hgt, ?_⟩
        rw [hl] at hin
        exact hin
    have hfp : ∀ p, pm = some p →
        ∃ k l s, (k, l, s) ∈ t.used ∧ k < off ∧ off < k + l ∧ s ≠ Acked ∧
          p = (k, off - k) := by
      intro p hp
      have h0 := (unmarkLoop_facts _ [] none).2.2.2 p (by rw [hl]; exact hp)
      obtain ⟨k, l, s, hm, h1', h2', h3', h4'⟩ := h0
      exact ⟨k, l, s, ((hmem_aff _).mp hm).1, h1', h2', h3', h4'⟩
    clear hl
    -- stage 1: the trim of the entry preceding the unmarked range
    have hstage1 : Chained 0 (trimTree t.used pm) ∧
        (trimTree t.used pm).filter (fun e => decide (e.2.2 = Acked)) =
          t.used.filter (fun e => decide (e.2.2 = Acked)) ∧
        (∀ e ∈ trimTree t.used pm,
          e ∈ t.used ∨ (¬e.2.2 = Acked ∧ e.1 + e.2.1 ≤ off)) := by
      rcases pm with _ | ⟨kp, np⟩
      · exact ⟨hc, rfl, fun e he => Or.inl he⟩
      · obtain ⟨k, l, s, hm, h1', h2', h3', h4'⟩ := hfp (kp, np) rfl
        injection h4' with h4a h4b
        subst h4a
        subst h4b
        rw [trimTree]
        refine ⟨chained_setEntryLen_shrink hc hm (by omega) (by omega), ?_, ?_⟩
        · apply filterAcked_setEntryLen
          intro e he hek
          obtain ⟨k', l', s'⟩ := e
          simp only at hek
          subst hek
          obtain ⟨he1, he2⟩ := chained_unique hc _ _ _ _ _ he hm
          subst he2
          exact h3'
        · intro e he
          rcases mem_setEntryLen_elim he with ⟨s0, rfl, l0, hm0⟩ | he
          · right
            obtain ⟨hu1, hu2⟩ := chained_unique hc _ _ _ _ _ hm0 hm
            subst hu2
            exact ⟨h3', by simp only; omega⟩
          · exact Or.inl he
    obtain ⟨h1c, h1f, h1m⟩ := hstage1
    -- stage 2: the removals
    have h2c : Chained 0 (tr.foldl (fun trr kk => treeRemove kk trr)
        (trimTree t.used pm)) := chained_foldl_treeRemove h1c
    have hT1nacked : ∀ kk ∈ tr, ∀ e ∈ trimTree t.used pm,
        e.1 = kk → ¬e.2.2 = Acked := by
      intro kk hkk e he hek
      obtain ⟨l, s, hm, hs, _, _⟩ := hfr kk hkk
      rcases h1m e he with he' | ⟨hna, _⟩
      · obtain ⟨k', l', s'⟩ := e
        simp only at hek
        subst hek
        obtain ⟨_, hu2⟩ := chained_unique hc _ _ _ _ _ he' hm
        subst hu2
        simpa using hs
      · exact hna
    have h2f : (tr.foldl (fun trr kk => treeRemove kk trr)
        (trimTree t.used pm)).filter (fun e => decide (e.2.2 = Acked)) =
        t.used.filter (fun e => decide (e.2.2 = Acked)) := by
      rw [filterAcked_foldl_treeRemove hT1nacked, h1f]
    have h2m : ∀ e ∈ (tr.foldl (fun trr kk => treeRemove kk trr)
        (trimTree t.used pm)),
        e ∈ t.used ∨ (¬e.2.2 = Acked ∧ e.1 + e.2.1 ≤ off) :=
      fun e he => h1m e (mem_foldl_treeRemove he)
    -- stage 3: the re-insertion
    rw [hequ]
    rcases ta with _ | ⟨ka, la, sa⟩
    · exact ⟨h2c, h2f⟩
    · obtain ⟨k, l, s, hm, hs, hk1, hk2, hae, hgt, hin⟩ := hfa (ka, la, sa) rfl
      injection hae with hae1 hae2
      injection hae2 with hae2 hae3
      subst hae1
      subst hae2
      subst hae3
      have hdisj : ∀ e ∈ (tr.foldl (fun trr kk => treeRemove kk trr)
          (trimTree t.used pm)),
          e.1 + e.2.1 ≤ off + len ∨ (off + len) + ((k + l) - (off + len)) ≤ e.1 := by
        intro e he
        have hne : e.1 ≠ k := key_not_mem_foldl_treeRemove h1c k hin e he
        rcases h2m e he with he' | ⟨_, hle'⟩
        · obtain ⟨k', l', s'⟩ := e
          simp only at hne ⊢
          rcases Nat.lt_or_ge k' k with hlt | hge
          · left
            have := chained_pairwise hc _ _ _ _ _ _ he' hm hlt
            omega
          · right
            have hgt' : k < k' := by omega
            have := chained_pairwise hc _ _ _ _ _ _ hm he' hgt'
            omega
        · left
          omega
      have hnoak : ∀ e ∈ (tr.foldl (fun trr kk => treeRemove kk trr)
          (trimTree t.used pm)), e.1 = off + len → ¬e.2.2 = Acked := by
        intro e he hek
        rcases h2m e he with he' | ⟨hna, _⟩
        · intro hak
          obtain ⟨k', l', s'⟩ := e
          simp only at hek hak
          subst hek
          subst hak
          have := chained_pairwise hc _ _ _ _ _ _ hm he' (by omega)
          omega
        · exact hna
      rw [addTree]
      refine ⟨?_, ?_⟩
      · exact chained_treeInsert_hole h2c (Nat.zero_le _) (by omega) hdisj
      · rw [filterAcked_treeInsert_sent (by simpa using hs) hnoak, h2f]

theorem chained_end_le {u : List Entry} :
    ∀ {lb : Nat}, Chained lb u →
      ∀ {kL lL : Nat} {sL : RangeState}, u.getLast? = some (kL, lL, sL) →
        ∀ e ∈ u, e.1 + e.2.1 ≤ kL + lL := by
  induction u with
  | nil => intro lb _ kL lL sL hg; cases hg
  | cons hd rest ih =>
    obtain ⟨k0, l0, s0⟩ := hd
    intro lb hc kL lL sL hg e he
    cases rest with
    | nil =>
      have hhd : ((k0, l0, s0) : Entry) = (kL, lL, sL) := by
        simpa using hg
      rcases List.mem_cons.mp he with rfl | h
      · injection hhd with a1 a2
        injection a2 with a2 a3
        simp only
        omega
      · cases h
    | cons r rs =>
      have hg2 : (r :: rs).getLast? = some (kL, lL, sL) := by
        simpa [List.getLast?_cons_cons] using hg
      have hmem : ((kL, lL, sL) : Entry) ∈ r :: rs := List.mem_of_getLast?_eq_some hg2
      rcases List.mem_cons.mp he with rfl | h
      · have hb := (chained_bounds hc.2.2 _ hmem).1
        simp only
        omega
      · exact ih hc.2.2 hg2 e h

theorem unmark_sent_spec {t : RangeTracker} (hc : Chained 0 t.used) :
    Chained 0 (unmark_sent t).used ∧
    (unmark_sent t).used = t.used.filter (fun e => decide (e.2.2 = Acked)) := by
  rcases hg : t.used.getLast? with _ | ⟨kL, lL, sL⟩
  · have hnil : t.used = [] := List.getLast?_eq_none_iff.mp hg
    have hh : highest_offset t = 0 := by simp only [highest_offset, hg]
    have hid : unmark_sent t = t := by
      rw [unmark_sent, hh, unmark_range, if_pos rfl]
    rw [hid, hnil]
    exact ⟨trivial, rfl⟩
  · have hmemL : ((kL, lL, sL) : Entry) ∈ t.used := List.mem_of_getLast?_eq_some hg
    have hposL : 0 < lL := (chained_bounds hc _ hmemL).2
    have hh : highest_offset t = kL + lL := by simp only [highest_offset, hg]
    have hend : ∀ e ∈ t.used, e.1 + e.2.1 ≤ kL + lL := chained_end_le hc hg
    have hlen : ¬(kL + lL) = 0 := by omega
    have hfilter : t.used.filter (fun e => decide (e.1 < 0 + (kL + lL))) = t.used := by
      apply List.filter_eq_self.mpr
      intro e he
      have h1 := (chained_bounds hc e he).2
      have h2 := hend e he
      simp only [decide_eq_true_eq]
      omega
    have hall : ∀ e ∈ t.used.reverse, 0 ≤ e.1 ∧ e.1 + e.2.1 ≤ 0 + (kL + lL) := by
      intro e he
      have := hend e (List.mem_reverse.mp he)
      omega
    have hl0 := unmarkLoop_all (t.used.reverse) [] none hall
    set tr : List Nat :=
      (t.used.reverse.filter (fun e => decide (¬e.2.2 = Acked))).map (fun e => e.1)
      with htr
    have hl : unmarkLoop 0 (kL + lL)
        ((t.used.filter (fun e => decide (e.1 < 0 + (kL + lL)))).reverse) [] none =
        (tr, none, none) := by
      rw [htr, hfilter, hl0, List.nil_append]
    have hequ := unmark_range_eq hlen hl
    have hused : (unmark_sent t).used =
        tr.foldl (fun trr kk => treeRemove kk trr) t.used := by
      rw [unmark_sent, hh, hequ]
      rfl
    have hkeys : ∀ kk ∈ tr, ∀ e ∈ t.used, e.1 = kk → ¬e.2.2 = Acked := by
      intro kk hkk e he hek
      obtain ⟨e2, he2, hke⟩ := List.mem_map.mp hkk
      have hf := List.mem_filter.mp he2
      have he2m : e2 ∈ t.used := List.mem_reverse.mp hf.1
      have hna : ¬e2.2.2 = Acked := by simpa using hf.2
      obtain ⟨k1, l1, s1⟩ := e
      obtain ⟨k2, l2, s2⟩ := e2
      simp only at hek hke hna ⊢
      subst hek
      subst hke
      obtain ⟨hu1, hu2⟩ := chained_unique hc _ _ _ _ _ he he2m
      subst hu2
      exact hna
    have hresc : Chained 0 (tr.foldl (fun trr kk => treeRemove kk trr) t.used) :=
      chained_foldl_treeRemove hc
    have hresf : (tr.foldl (fun trr kk => treeRemove kk trr) t.used).filter
        (fun e => decide (e.2.2 = Acked)) =
        t.used.filter (fun e => decide (e.2.2 = Acked)) :=
      filterAcked_foldl_treeRemove hkeys
    have honly : ∀ e ∈ tr.foldl (fun trr kk => treeRemove kk trr) t.used,
        e.2.2 = Acked := by
      intro e he
      by_contra hna
      have hem : e ∈ t.used := mem_foldl_treeRemove he
      have hfm : e ∈ t.used.reverse.filter (fun e => decide (¬e.2.2 = Acked)) :=
        List.mem_filter.mpr ⟨List.mem_reverse.mpr hem, by simpa using hna⟩
      have hkk : e.1 ∈ tr := by
        rw [htr]
        exact List.mem_map.mpr ⟨e, hfm, rfl⟩
      exact key_not_mem_foldl_treeRemove hc e.1 hkk e he rfl
    have hself : (tr.foldl (fun trr kk => treeRemove kk trr) t.used).filter
        (fun e => decide (e.2.2 = Acked)) =
        tr.foldl (fun trr kk => treeRemove kk trr) t.used :=
      List.filter_eq_self.mpr (fun e he => by simpa using honly e he)
    refine ⟨?_, ?_⟩
    · rw [hused]; exact hresc
    · rw [hused, ← hself, hresf]

theorem covAcked_of_filter {u v : List Entry} (hcv : Chained 0 v)
    (hf : v.filter (fun e => decide (e.2.2 = Acked)) =
      u.filter (fun e => decide (e.2.2 = Acked))) {x : Nat}
    (h : covState x u = some Acked) : covState x v = some Acked := by
  obtain ⟨k, ln, hm, h1, h2⟩ := covState_some_elim h
  have hmf : ((k, ln, Acked) : Entry) ∈ u.filter (fun e => decide (e.2.2 = Acked)) :=
    List.mem_filter.mpr ⟨hm, by simp⟩
  rw [← hf] at hmf
  exact covState_of_mem hcv (List.mem_filter.mp hmf).1 h1 h2

theorem pc_of_filter {u v : List Entry} (hcu : Chained 0 u)
    (hpc : PrefixCoalesced u)
    (hf : v.filter (fun e => decide (e.2.2 = Acked)) =
      u.filter (fun e => decide (e.2.2 = Acked))) :
    PrefixCoalesced v := by
  intro L l2 hg0 hgL
  have hm0 : ((0, L, Acked) : Entry) ∈ v := treeGet_mem hg0
  have hmL : ((L, l2, Acked) : Entry) ∈ v := treeGet_mem hgL
  have hm0u : ((0, L, Acked) : Entry) ∈ u := by
    have hx : ((0, L, Acked) : Entry) ∈ v.filter (fun e => decide (e.2.2 = Acked)) :=
      List.mem_filter.mpr ⟨hm0, by simp⟩
    rw [hf] at hx
    exact (List.mem_filter.mp hx).1
  have hmLu : ((L, l2, Acked) : Entry) ∈ u := by
    have hx : ((L, l2, Acked) : Entry) ∈ v.filter (fun e => decide (e.2.2 = Acked)) :=
      List.mem_filter.mpr ⟨hmL, by simp⟩
    rw [hf] at hx
    exact (List.mem_filter.mp hx).1
  exact hpc L l2 (treeGet_of_mem hcu hm0u) (treeGet_of_mem hcu hmLu)

theorem treeRemove_treeInsert {k : Nat} {v : Nat × RangeState} {u : List Entry}
    (h : ∀ e ∈ u, e.1 ≠ k) : treeRemove k (treeInsert k v u) = u := by
  induction u with
  | nil =>
    rw [treeInsert, treeRemove, if_pos rfl]
  | cons hd rest ih =>
    obtain ⟨k0, l0, s0⟩ := hd
    have hk0 : k0 ≠ k := h (k0, l0, s0) (List.mem_cons_self _ _)
    by_cases h1 : k < k0
    · rw [treeInsert, if_pos h1, treeRemove, if_pos rfl]
    · rw [treeInsert, if_neg h1, if_neg (fun hh => hk0 hh.symm),
        treeRemove_cons_ne (fun hh => hk0 hh.symm),
        ih fun e he => h e (List.mem_cons_of_mem _ he)]

theorem coalesce_id {u : List Entry} (hpc : PrefixCoalesced u) :
    coalesce_acked_from_zero u = u := by
  rcases hg0 : treeGet 0 u with _ | ⟨L, s⟩
  · simp only [coalesce_acked_from_zero, hg0]
  · cases s with
    | Sent => simp only [coalesce_acked_from_zero, hg0]
    | Acked =>
      have hloop : coalesceLoop u (u.length + 1) L [] = (L, []) := by
        rcases hgl : treeGet L u with _ | ⟨nl, s2⟩
        · simp only [coalesceLoop, hgl]
        · cases s2 with
          | Sent => simp only [coalesceLoop, hgl]
          | Acked => exact absurd hgl (hpc L nl hg0)
      simp only [coalesce_acked_from_zero, hg0, hloop]
      rw [if_neg (by simp)]
      rfl

theorem mark_hole_eq {t : RangeTracker} {o n : Nat} (hc : Chained 0 t.used)
    (hpc : PrefixCoalesced t.used) (hn : 0 < n)
    (hhole : ∀ e ∈ t.used, e.1 + e.2.1 ≤ o ∨ o + n ≤ e.1) :
    mark_range t o n Sent =
      { used := treeInsert o (n, Sent) t.used, cached := none } := by
  have hls : leftSplit o t.used = t.used := by
    apply leftSplit_id
    intro e he hlt
    rcases hhole e he with h | h
    · exact h
    · omega
  have hmf : t.used.filter (fun e => decide (o ≤ e.1 ∧ e.1 < o + n)) = [] := by
    apply List.filter_eq_nil_iff.mpr
    intro e he
    have hpos := (chained_bounds hc e he).2
    simp only [decide_eq_true_eq]
    rcases hhole e he with h | h <;> omega
  have hw2 : middleWalk Sent ((leftSplit o t.used).filter
      (fun e => decide (o ≤ e.1 ∧ e.1 < o + n))) o n [] none = (o, n, [], none) := by
    rw [hls, hmf]
    rfl
  have hp := @chunk_range_on_edges_eq t.used o n Sent o n [] none hw2
  rw [if_pos hn, List.nil_append, hls] at hp
  have hp2 : chunk_range_on_edges t.used o n Sent = ([(o, n, Sent)], t.used) := hp
  have hmark := mark_range_eq (by omega) hp2
  rw [hmark]
  have hfold : ([(o, n, Sent)] : List Entry).foldl
      (fun tr e => treeInsert e.1 (e.2.1, e.2.2) tr) t.used =
      treeInsert o (n, Sent) t.used := rfl
  rw [hfold]
  have hpc1 : PrefixCoalesced (treeInsert o (n, Sent) t.used) := by
    intro L l2 hg0 hgL
    have hm0 := treeGet_mem hg0
    have hmL := treeGet_mem hgL
    rcases mem_treeInsert_elim hm0 with he | he
    · injection he with e1 e2
      injection e2 with e2 e3
      simp at e3
    · rcases mem_treeInsert_elim hmL with he2 | he2
      · injection he2 with f1 f2
        injection f2 with f2 f3
        simp at f3
      · exact hpc L l2 (treeGet_of_mem hc he) (treeGet_of_mem hc he2)
  rw [coalesce_id hpc1]

theorem unmarkLoop_break {off len : Nat} {aff : List Entry} {tr0 : List Nat}
    {ta0 : Option Entry}
    (h : ∀ e ∈ aff, e.1 < off ∧ e.1 + e.2.1 ≤ off) :
    unmarkLoop off len aff tr0 ta0 = (tr0, ta0, none) := by
  cases aff with
  | nil => rfl
  | cons hd rest =>
    obtain ⟨k, l, s⟩ := hd
    have hh := h (k, l, s) (List.mem_cons_self _ _)
    simp only at hh
    rw [unmarkLoop, if_pos hh.1]
    rw [if_neg fun hcon => absurd hcon.1 (by omega)]

theorem mark_unmark_hole {t : RangeTracker} {o n : Nat} (hc : Chained 0 t.used)
    (hpc : PrefixCoalesced t.used) (hn : 0 < n)
    (hhole : ∀ e ∈ t.used, e.1 + e.2.1 ≤ o ∨ o + n ≤ e.1) :
    (unmark_range (mark_range t o n Sent) o n).used = t.used := by
  rw [mark_hole_eq hc hpc hn hhole]
  obtain ⟨P, M, S, hu, hP, hM, hS⟩ := chain_split3 hc o (o + n)
  have hMnil : M = [] := by
    rcases hMc : M with _ | ⟨e, M2⟩
    · rfl
    · exfalso
      have hmM : e ∈ M := by rw [hMc]; exact List.mem_cons_self _ _
      have hme : e ∈ t.used := by
        rw [hu]
        exact List.mem_append.mpr (Or.inl (List.mem_append.mpr (Or.inr hmM)))
      have hbd := hM e hmM
      have hpos := (chained_bounds hc e hme).2
      rcases hhole e hme with h | h <;> omega
  rw [hMnil] at hu
  rw [List.append_nil] at hu
  have hPend : ∀ e ∈ P, e.1 + e.2.1 ≤ o := by
    intro e he
    have hme : e ∈ t.used := by rw [hu]; exact List.mem_append.mpr (Or.inl he)
    rcases hhole e hme with h | h
    · exact h
    · have := hP e he; omega
  have ht1 : treeInsert o (n, Sent) t.used = P ++ (o, n, Sent) :: S := by
    rw [hu, treeInsert_append hP,
      treeInsert_front (fun e he => by have := hS e he; omega)]
  have hfilt : (P ++ (o, n, Sent) :: S).filter (fun e => decide (e.1 < o + n)) =
      P ++ [(o, n, Sent)] := by
    rw [List.filter_append, List.filter_cons]
    rw [if_pos (by show decide (o < o + n) = true
                   simp only [decide_eq_true_eq]
                   omega)]
    rw [List.filter_eq_self.mpr (fun e he => by
        have := hP e he
        simp only [decide_eq_true_eq]
        omega),
      List.filter_eq_nil_iff.mpr (fun e he => by
        have := hS e he
        simp only [decide_eq_true_eq]
        omega)]
  have hPrev : ∀ e ∈ P.reverse, e.1 < o ∧ e.1 + e.2.1 ≤ o := by
    intro e he
    have hme := List.mem_reverse.mp he
    exact ⟨hP e hme, hPend e hme⟩
  have hloop : unmarkLoop o n ((o, n, Sent) :: P.reverse) [] none =
      ([o], none, none) := by
    rw [unmarkLoop, if_neg (by omega)]
    rw [if_neg (by decide)]
    rw [if_neg (by omega : ¬(o + n > o + n))]
    rw [List.nil_append]
    exact unmarkLoop_break hPrev
  have hrev : (P ++ [(o, n, Sent)]).reverse = (o, n, Sent) :: P.reverse := by
    simp
  have hl : unmarkLoop o n
      ((({ used := treeInsert o (n, Sent) t.used, cached := none } :
          RangeTracker).used.filter (fun e => decide (e.1 < o + n))).reverse)
      [] none = ([o], none, none) := by
    show unmarkLoop o n
      (((treeInsert o (n, Sent) t.used).filter
        (fun e => decide (e.1 < o + n))).reverse) [] none = ([o], none, none)
    rw [ht1, hfilt, hrev]
    exact hloop
  have hequ := unmark_range_eq (by omega) hl
  rw [hequ]
  show treeRemove o (treeInsert o (n, Sent) t.used) = t.used
  apply treeRemove_treeInsert
  intro e he
  have hpos := (chained_bounds hc e he).2
  rcases hhole e he with h | h <;> omega

theorem first_unmarked_used (t : RangeTracker) :
    ((first_unmarked_range t).2).used = t.used := by
  rcases hcc : t.cached with _ | c
  · simp only [first_unmarked_range, hcc]
  · simp only [first_unmarked_range, hcc]

theorem reachable_inv {t : RangeTracker} (hr : Reachable t) :
    Chained 0 t.used ∧ PrefixCoalesced t.used := by
  induction hr with
  | empty =>
    refine ⟨trivial, ?_⟩
    intro L l2 hg
    cases hg
  | step hr1 hstep ih =>
    obtain ⟨hc, hpc⟩ := ih
    cases hstep with
    | mark off len state h =>
      by_cases hlen : len = 0
      · rw [mark_range, if_pos hlen]
        exact ⟨hc, hpc⟩
      · obtain ⟨hc2, hpc2, _⟩ := mark_range_spec hc (Nat.pos_of_ne_zero hlen)
        exact ⟨hc2, hpc2⟩
    | unmark off len h =>
      obtain ⟨hc2, hf⟩ := unmark_range_spec hc
      exact ⟨hc2, pc_of_filter hc hpc hf⟩
    | unmarkSent =>
      obtain ⟨hc2, hf⟩ := unmark_sent_spec hc
      refine ⟨hc2, pc_of_filter hc hpc ?_⟩
      rw [hf]
      apply List.filter_eq_self.mpr
      intro e he
      exact (List.mem_filter.mp he).2
    | query =>
      rw [first_unmarked_used]
      exact ⟨hc, hpc⟩

theorem chained_append_left {lb : Nat} {X Y : List Entry} (h : Chained lb (X ++ Y)) :
    Chained lb X := by
  induction X generalizing lb with
  | nil => exact trivial
  | cons hd rest ih =>
    obtain ⟨k, l, s⟩ := hd
    exact ⟨h.1, h.2.1, ih h.2.2⟩

theorem chained_append_right {lb : Nat} {X Y : List Entry} (h : Chained lb (X ++ Y)) :
    Chained 0 Y := by
  induction X generalizing lb with
  | nil => exact h.mono (Nat.zero_le _)
  | cons hd rest ih =>
    obtain ⟨k, l, s⟩ := hd
    exact ih h.2.2

theorem chained_before_last {lb k l : Nat} {s : RangeState} {X : List Entry}
    (h : Chained lb (X ++ [(k, l, s)])) : ∀ e ∈ X, e.1 + e.2.1 ≤ k := by
  induction X generalizing lb with
  | nil => intro e he; cases he
  | cons hd rest ih =>
    obtain ⟨k0, l0, s0⟩ := hd
    intro e he
    rcases List.mem_cons.mp he with rfl | he
    · have hm : ((k, l, s) : Entry) ∈ rest ++ [(k, l, s)] :=
        List.mem_append.mpr (Or.inr (List.mem_singleton.mpr rfl))
      have := (chained_bounds h.2.2 _ hm).1
      simpa using this
    · exact ih h.2.2 e he

theorem mem_treeRemove_of_ne {e : Entry} {k : Nat} {u : List Entry}
    (hm : e ∈ u) (hne : e.1 ≠ k) : e ∈ treeRemove k u := by
  induction u with
  | nil => cases hm
  | cons hd rest ih =>
    obtain ⟨k0, l0, s0⟩ := hd
    by_cases h0 : k = k0
    · rw [treeRemove, if_pos h0]
      rcases List.mem_cons.mp hm with rfl | hm2
      · exact absurd h0.symm hne
      · exact hm2
    · rw [treeRemove, if_neg h0]
      rcases List.mem_cons.mp hm with rfl | hm2
      · exact List.mem_cons_self _ _
      · exact List.mem_cons_of_mem _ (ih hm2)

theorem mem_foldl_treeRemove_of_ne {ks : List Nat} :
    ∀ {u : List Entry} {e : Entry}, e ∈ u → (∀ kk ∈ ks, e.1 ≠ kk) →
      e ∈ ks.foldl (fun t k => treeRemove k t) u := by
  induction ks with
  | nil => intro u e hm _; exact hm
  | cons k ks2 ih =>
    intro u e hm hne
    rw [List.foldl_cons]
    exact ih (mem_treeRemove_of_ne hm (hne k (List.mem_cons_self _ _)))
      (fun kk hk => hne kk (List.mem_cons_of_mem _ hk))

theorem mem_setEntryLen_of_ne {e : Entry} {k nl : Nat} {u : List Entry}
    (hm : e ∈ u) (hne : e.1 ≠ k) : e ∈ setEntryLen k nl u := by
  induction u with
  | nil => cases hm
  | cons hd rest ih =>
    obtain ⟨k0, l0, s0⟩ := hd
    by_cases h0 : k0 = k
    · rw [setEntryLen, if_pos h0]
      rcases List.mem_cons.mp hm with rfl | hm2
      · exact absurd h0 hne
      · exact List.mem_cons_of_mem _ hm2
    · rw [setEntryLen, if_neg h0]
      rcases List.mem_cons.mp hm with rfl | hm2
      · exact List.mem_cons_self _ _
      · exact List.mem_cons_of_mem _ (ih hm2)

theorem mem_setEntryLen_self_chained {lb k l0 nl : Nat} {s0 : RangeState}
    {u : List Entry} (hc : Chained lb u) (hm : (k, l0, s0) ∈ u) :
    (k, nl, s0) ∈ setEntryLen k nl u := by
  induction u generalizing lb with
  | nil => cases hm
  | cons hd rest ih =>
    obtain ⟨k0, l0', s0'⟩ := hd
    by_cases h0 : k0 = k
    · rw [setEntryLen, if_pos h0]
      rcases List.mem_cons.mp hm with heq | hm2
      · injection heq with e1 e2
        injection e2 with e2 e3
        rw [h0, e3]
        exact List.mem_cons_self _ _
      · exfalso
        have hb := (chained_bounds hc.2.2 _ hm2).1
        have := hc.2.1
        omega
    · rw [setEntryLen, if_neg h0]
      rcases List.mem_cons.mp hm with heq | hm2
      · injection heq with e1 _
        exact absurd e1 (fun h => h0 h.symm)
      · exact List.mem_cons_of_mem _ (ih hc.2.2 hm2)

theorem mem_setEntryLen_elim_chained {lb k nl : Nat} {u : List Entry} {e : Entry}
    (hc : Chained lb u) (hm : e ∈ setEntryLen k nl u) :
    (∃ s0 l0, e = (k, nl, s0) ∧ (k, l0, s0) ∈ u) ∨ (e ∈ u ∧ e.1 ≠ k) := by
  induction u generalizing lb with
  | nil => cases hm
  | cons hd rest ih =>
    obtain ⟨k0, l0', s0'⟩ := hd
    by_cases h0 : k0 = k
    · rw [setEntryLen, if_pos h0] at hm
      rcases List.mem_cons.mp hm with rfl | hm2
      · exact Or.inl ⟨s0', l0', by rw [h0], by rw [← h0]; exact List.mem_cons_self _ _⟩
      · right
        refine ⟨List.mem_cons_of_mem _ hm2, ?_⟩
        have hb := (chained_bounds hc.2.2 _ hm2).1
        have := hc.2.1
        omega
    · rw [setEntryLen, if_neg h0] at hm
      rcases List.mem_cons.mp hm with rfl | hm2
      · exact Or.inr ⟨List.mem_cons_self _ _, h0⟩
      · rcases ih hc.2.2 hm2 with ⟨s0, l0, he, hmem⟩ | ⟨h1, h2⟩
        · exact Or.inl ⟨s0, l0, he, List.mem_cons_of_mem _ hmem⟩
        · exact Or.inr ⟨List.mem_cons_of_mem _ h1, h2⟩

theorem mem_treeInsert_ins {k : Nat} {v : Nat × RangeState} {u : List Entry} :
    (k, v.1, v.2) ∈ treeInsert k v u := by
  induction u with
  | nil =>
    rw [treeInsert]
    exact List.mem_cons_self _ _
  | cons hd rest ih =>
    obtain ⟨k0, l0, s0⟩ := hd
    by_cases h1 : k < k0
    · rw [treeInsert, if_pos h1]
      exact List.mem_cons_self _ _
    · by_cases h2 : k = k0
      · rw [treeInsert, if_neg h1, if_pos h2]
        exact List.mem_cons_self _ _
      · rw [treeInsert, if_neg h1, if_neg h2]
        exact List.mem_cons_of_mem _ ih

theorem chained_cover_unique {lb x k1 l1 k2 l2 : Nat} {s1 s2 : RangeState}
    {u : List Entry} (hc : Chained lb u) (h1 : (k1, l1, s1) ∈ u)
    (h2 : (k2, l2, s2) ∈ u) (ha1 : k1 ≤ x) (hb1 : x < k1 + l1) (ha2 : k2 ≤ x)
    (hb2 : x < k2 + l2) : k1 = k2 ∧ l1 = l2 ∧ s1 = s2 := by
  have hk : k1 = k2 := by
    rcases Nat.lt_trichotomy k1 k2 with h | h | h
    · have := chained_pairwise hc _ _ _ _ _ _ h1 h2 h
      omega
    · exact h
    · have := chained_pairwise hc _ _ _ _ _ _ h2 h1 h
      omega
  subst hk
  obtain ⟨hl, hs⟩ := chained_unique hc _ _ _ _ _ h1 h2
  exact ⟨rfl, hl, hs⟩

theorem unmarkLoop_chunk {off len : Nat} :
    ∀ (A B : List Entry) (tr0 : List Nat) (ta0 : Option Entry),
      (∀ e ∈ A, off ≤ e.1 ∧ e.1 + e.2.1 ≤ off + len) →
      unmarkLoop off len (A ++ B) tr0 ta0 =
        unmarkLoop off len B
          (tr0 ++ (A.filter (fun e => decide (¬e.2.2 = Acked))).map (fun e => e.1))
          ta0 := by
  intro A
  induction A with
  | nil =>
    intro B tr0 ta0 _
    simp
  | cons hd rest ih =>
    obtain ⟨k, l, s⟩ := hd
    intro B tr0 ta0 hb
    have hk := hb (k, l, s) (List.mem_cons_self _ _)
    simp only at hk
    rw [List.cons_append, unmarkLoop, if_neg (by omega)]
    by_cases h2 : s = Acked
    · rw [if_pos h2, ih B tr0 ta0 (fun e he => hb e (List.mem_cons_of_mem _ he))]
      rw [List.filter_cons, if_neg (by simp [h2])]
    · rw [if_neg h2, if_neg (by omega : ¬(k + l > off + len))]
      rw [ih B (tr0 ++ [k]) ta0 (fun e he => hb e (List.mem_cons_of_mem _ he))]
      rw [List.filter_cons, if_pos (by simp [h2])]
      simp [List.append_assoc]

theorem unmarkLoop_final {off len lb : Nat} {P : List Entry} (hcP : Chained lb P)
    (hPlt : ∀ e ∈ P, e.1 < off) (tr0 : List Nat) (ta0 : Option Entry) :
    ∃ pmv, unmarkLoop off len P.reverse tr0 ta0 = (tr0, ta0, pmv) ∧
      ∀ k l, (k, l, Sent) ∈ P → off < k + l → pmv = some (k, off - k) := by
  rcases List.eq_nil_or_concat' P with rfl | ⟨P0, pl, rfl⟩
  · exact ⟨none, rfl, fun k l hm _ => absurd hm (List.not_mem_nil _)⟩
  · obtain ⟨kp, lp, sp⟩ := pl
    have hrev : (P0 ++ [(kp, lp, sp)] : List Entry).reverse =
        (kp, lp, sp) :: P0.reverse := by simp
    rw [hrev]
    have hkp : kp < off := hPlt (kp, lp, sp)
      (List.mem_append.mpr (Or.inr (List.mem_singleton.mpr rfl)))
    rw [unmarkLoop, if_pos hkp]
    refine ⟨_, rfl, ?_⟩
    intro k l hm hko
    have hbefore := chained_before_last hcP
    rcases List.mem_append.mp hm with hm0 | hm1
    · exfalso
      have hle := hbefore _ hm0
      simp only at hle
      have := hPlt (kp, lp, sp)
        (List.mem_append.mpr (Or.inr (List.mem_singleton.mpr rfl)))
      omega
    · have heq : ((k, l, Sent) : Entry) = (kp, lp, sp) := List.mem_singleton.mp hm1
      injection heq with e1 e2
      injection e2 with e2 e3
      subst e1
      subst e2
      rw [if_pos ⟨by omega, by rw [← e3]; decide⟩]

theorem unmarkLoop_complete {t : RangeTracker} {off len : Nat}
    (hc : Chained 0 t.used) {tr : List Nat} {ta : Option Entry}
    {pm : Option (Nat × Nat)}
    (hl : unmarkLoop off len
        ((t.used.filter (fun e => decide (e.1 < off + len))).reverse) [] none
      = (tr, ta, pm)) :
    (∀ k l, (k, l, Sent) ∈ t.used → k < off → off < k + l →
      pm = some (k, off - k)) ∧
    (∀ k l, (k, l, Sent) ∈ t.used → off ≤ k → k < off + len → k ∈ tr) ∧
    (∀ k l, (k, l, Sent) ∈ t.used → off ≤ k → k < off + len → off + len < k + l →
      ta = some (off + len, k + l - (off + len), Sent)) := by
  obtain ⟨P, M, S, hu, hP, hM, hS⟩ := chain_split3 hc off (off + len)
  have hcPM : Chained 0 (P ++ M) := by
    rw [hu] at hc
    exact chained_append_left hc
  have hcP : Chained 0 P := chained_append_left hcPM
  have hcM : Chained 0 M := chained_append_right hcPM
  rw [hu] at hc
  have hmemP : ∀ (e : Entry), e ∈ P ++ M ++ S → e.1 < off → e ∈ P := by
    intro e hm hlt
    rcases List.mem_append.mp hm with hm | hm
    · rcases List.mem_append.mp hm with hm | hm
      · exact hm
      · exact absurd (hM e hm).1 (by omega)
    · exact absurd (hS e hm) (by omega)
  have hmemM : ∀ (e : Entry), e ∈ P ++ M ++ S → off ≤ e.1 → e.1 < off + len →
      e ∈ M := by
    intro e hm h1 h2
    rcases List.mem_append.mp hm with hm | hm
    · rcases List.mem_append.mp hm with hm | hm
      · exact absurd (hP e hm) (by omega)
      · exact hm
    · exact absurd (hS e hm) (by omega)
  have hfeq : (P ++ M ++ S).filter (fun e => decide (e.1 < off + len)) =
      P ++ M := by
    rw [List.filter_append, List.filter_append]
    rw [List.filter_eq_self.mpr (fun e he => by
        have := hP e he
        simp only [decide_eq_true_eq]
        omega),
      List.filter_eq_self.mpr (fun e he => by
        have := (hM e he).2
        simp only [decide_eq_true_eq]
        omega),
      List.filter_eq_nil_iff.mpr (fun e he => by
        have := hS e he
        simp only [decide_eq_true_eq]
        omega),
      List.append_nil]
  rw [hu, hfeq, List.reverse_append] at hl
  rcases List.eq_nil_or_concat' M with rfl | ⟨M0, ml, rfl⟩
  · simp only [List.reverse_nil, List.nil_append] at hl
    obtain ⟨pmv, heq, hcomp⟩ := unmarkLoop_final hcP hP [] none
    rw [heq] at hl
    injection hl with h1 h23
    injection h23 with h2 h3
    subst h1
    subst h2
    subst h3
    refine ⟨?_, ?_, ?_⟩
    · intro k l hm hlt hgt
      rw [hu] at hm
      exact hcomp k l (hmemP _ hm hlt) hgt
    · intro k l hm h1 h2
      rw [hu] at hm
      have := hmemM _ hm h1 h2
      cases this
    · intro k l hm h1 h2 _
      rw [hu] at hm
      have := hmemM _ hm h1 h2
      cases this
  · obtain ⟨km, lm, sm⟩ := ml
    have hmlM : ((km, lm, sm) : Entry) ∈ M0 ++ [(km, lm, sm)] :=
      List.mem_append.mpr (Or.inr (List.mem_singleton.mpr rfl))
    have hkm := hM _ hmlM
    simp only at hkm
    have hM0end : ∀ e ∈ M0, e.1 + e.2.1 ≤ km := chained_before_last hcM
    have hM0bounds : ∀ e ∈ M0.reverse, off ≤ e.1 ∧ e.1 + e.2.1 ≤ off + len := by
      intro e he
      have hme := List.mem_reverse.mp he
      have h1 := (hM e (List.mem_append.mpr (Or.inl hme))).1
      have h2 := hM0end e hme
      exact ⟨h1, by omega⟩
    have hrev2 : (M0 ++ [(km, lm, sm)] : List Entry).reverse =
        (km, lm, sm) :: M0.reverse := by simp
    rw [hrev2, List.cons_append, unmarkLoop, if_neg (by omega)] at hl
    by_cases hsm : sm = Acked
    · rw [if_pos hsm, unmarkLoop_chunk M0.reverse P.reverse [] none hM0bounds,
        List.nil_append] at hl
      obtain ⟨pmv, heq, hcomp⟩ := unmarkLoop_final hcP hP
        ((M0.reverse.filter (fun e => decide (¬e.2.2 = Acked))).map (fun e => e.1))
        none
      rw [heq] at hl
      injection hl with h1 h23
      injection h23 with h2 h3
      subst h1
      subst h2
      subst h3
      refine ⟨?_, ?_, ?_⟩
      · intro k l hm hlt hgt
        rw [hu] at hm
        exact hcomp k l (hmemP _ hm hlt) hgt
      · intro k l hm h1 h2
        rw [hu] at hm
        have hmm := hmemM _ hm h1 h2
        rcases List.mem_append.mp hmm with hm0 | hm1
        · apply List.mem_map.mpr
          refine ⟨(k, l, Sent), List.mem_filter.mpr ⟨List.mem_reverse.mpr hm0, by simp⟩, rfl⟩
        · have heq2 : ((k, l, Sent) : Entry) = (km, lm, sm) := List.mem_singleton.mp hm1
          injection heq2 with e1 e2
          injection e2 with e2 e3
          exact absurd (e3.trans hsm) (by decide)
      · intro k l hm h1 h2 hgt
        rw [hu] at hm
        have hmm := hmemM _ hm h1 h2
        rcases List.mem_append.mp hmm with hm0 | hm1
        · have := hM0end _ hm0
          simp only at this
          omega
        · have heq2 : ((k, l, Sent) : Entry) = (km, lm, sm) := List.mem_singleton.mp hm1
          injection heq2 with e1 e2
          injection e2 with e2 e3
          exact absurd (e3.trans hsm) (by decide)
    · rw [if_neg hsm,
        unmarkLoop_chunk M0.reverse P.reverse ([] ++ [km]) _ hM0bounds] at hl
      obtain ⟨pmv, heq, hcomp⟩ := unmarkLoop_final hcP hP
        (([] ++ [km]) ++
          (M0.reverse.filter (fun e => decide (¬e.2.2 = Acked))).map (fun e => e.1))
        (if km + lm > off + len then
          some (off + len, km + lm - (off + len), sm) else none)
      rw [heq] at hl
      injection hl with h1 h23
      injection h23 with h2 h3
      subst h1
      subst h2
      subst h3
      refine ⟨?_, ?_, ?_⟩
      · intro k l hm hlt hgt
        rw [hu] at hm
        exact hcomp k l (hmemP _ hm hlt) hgt
      · intro k l hm h1 h2
        rw [hu] at hm
        have hmm := hmemM _ hm h1 h2
        rcases List.mem_append.mp hmm with hm0 | hm1
        · apply List.mem_append.mpr
          right
          apply List.mem_map.mpr
          refine ⟨(k, l, Sent), List.mem_filter.mpr ⟨List.mem_reverse.mpr hm0, by simp⟩, rfl⟩
        · have heq2 : ((k, l, Sent) : Entry) = (km, lm, sm) := List.mem_singleton.mp hm1
          injection heq2 with e1 e2
          apply List.mem_append.mpr
          left
          rw [List.nil_append, e1]
          exact List.mem_cons_self _ _
      · intro k l hm h1 h2 hgt
        rw [hu] at hm
        have hmm := hmemM _ hm h1 h2
        rcases List.mem_append.mp hmm with hm0 | hm1
        · have := hM0end _ hm0
          simp only at this
          omega
        · have heq2 : ((k, l, Sent) : Entry) = (km, lm, sm) := List.mem_singleton.mp hm1
          injection heq2 with e1 e2
          injection e2 with e2 e3
          rw [if_pos (by omega)]
          rw [← e1, ← e2, ← e3]

theorem unmark_range_cov {t : RangeTracker} {off len : Nat} (hc : Chained 0 t.used)
    (hlen : 0 < len) :
    (∀ x, x < off →
      covState x (unmark_range t off len).used = covState x t.used) ∧
    (∀ x, off ≤ x → x < off + len →
      covState x (unmark_range t off len).used =
        (if covState x t.used = some Acked then some Acked else none)) ∧
    (∀ k l, (k, l, Sent) ∈ t.used → k < off → off < k + l →
      (k, off - k, Sent) ∈ (unmark_range t off len).used ∧
      (∀ x, off + len ≤ x → x < k + l →
        covState x (unmark_range t off len).used = none)) := by
  have hFc : Chained 0 (unmark_range t off len).used := (unmark_range_spec hc).1
  rcases hl : unmarkLoop off len
      ((t.used.filter (fun e => decide (e.1 < off + len))).reverse) [] none
    with ⟨tr, ta, pm⟩
  obtain ⟨L1, L2, L3⟩ := unmarkLoop_complete hc hl
  have hused : (unmark_range t off len).used =
      addTree (tr.foldl (fun trr kk => treeRemove kk trr) (trimTree t.used pm))
        ta := by
    rw [unmark_range_eq (by omega) hl]
  have hmem_aff : ∀ (e : Entry),
      e ∈ (t.used.filter (fun e => decide (e.1 < off + len))).reverse ↔
        e ∈ t.used ∧ e.1 < off + len := by
    intro e
    simp [List.mem_reverse, List.mem_filter]
  have hfr : ∀ kk ∈ tr, ∃ l s, (kk, l, s) ∈ t.used ∧ s ≠ Acked ∧
      off ≤ kk ∧ kk < off + len := by
    intro kk hk
    have h0 := (unmarkLoop_facts _ [] none).2.1 kk (by rw [hl]; exact hk)
    rcases h0 with h0 | ⟨l, s, hm, hs, hk2⟩
    · cases h0
    · obtain ⟨hm1, hm2⟩ := (hmem_aff _).mp hm
      exact ⟨l, s, hm1, hs, hk2, hm2⟩
  have hfa : ∀ a, ta = some a →
      ∃ k l s, (k, l, s) ∈ t.used ∧ s ≠ Acked ∧ off ≤ k ∧ k < off + len ∧
        a = (off + len, (k + l) - (off + len), s) ∧ off + len < k + l := by
    intro a ha
    have h0 := (unmarkLoop_facts _ [] none).2.2.1 a (by rw [hl]; exact ha)
    rcases h0 with h0 | ⟨k, l, s, hm, hs, hk2, he, hgt, _⟩
    · cases h0
    · obtain ⟨hm1, hm2⟩ := (hmem_aff _).mp hm
      exact ⟨k, l, s, hm1, hs, hk2, hm2, he, hgt⟩
  have hfp : ∀ p, pm = some p →
      ∃ k l s, (k, l, s) ∈ t.used ∧ k < off ∧ off < k + l ∧ s ≠ Acked ∧
        p = (k, off - k) := by
    intro p hp
    have h0 := (unmarkLoop_facts _ [] none).2.2.2 p (by rw [hl]; exact hp)
    obtain ⟨k, l, s, hm, h1, h2, h3, h4⟩ := h0
    exact ⟨k, l, s, ((hmem_aff _).mp hm).1, h1, h2, h3, h4⟩
  clear hl
  have hcT1 : Chained 0 (trimTree t.used pm) := by
    rcases pm with _ | ⟨kp, np⟩
    · exact hc
    · obtain ⟨kps, lps, sps, hmp, hp1, hp2, hp3, hpeq⟩ := hfp (kp, np) rfl
      injection hpeq with q1 q2
      subst q1
      subst q2
      simp only [trimTree]
      exact chained_setEntryLen_shrink hc hmp (by omega) (by omega)
  have hF1 : ∀ e ∈ (unmark_range t off len).used,
      (∃ k2 l2 s2, (k2, l2, s2) ∈ t.used ∧ s2 ≠ Acked ∧ off ≤ k2 ∧
        k2 < off + len ∧ off + len < k2 + l2 ∧
        e = (off + len, k2 + l2 - (off + len), s2)) ∨
      (∃ k2 l2 s2, (k2, l2, s2) ∈ t.used ∧ k2 < off ∧ off < k2 + l2 ∧
        s2 ≠ Acked ∧ e = (k2, off - k2, s2)) ∨
      (e ∈ t.used ∧ (∀ kk ∈ tr, e.1 ≠ kk) ∧
        ∀ p, pm = some p → e.1 ≠ p.1) := by
    intro e he
    rw [hused] at he
    have hstep : e ∈ tr.foldl (fun trr kk => treeRemove kk trr)
        (trimTree t.used pm) ∨
        (∃ k2 l2 s2, (k2, l2, s2) ∈ t.used ∧ s2 ≠ Acked ∧ off ≤ k2 ∧
          k2 < off + len ∧ off + len < k2 + l2 ∧
          e = (off + len, k2 + l2 - (off + len), s2)) := by
      rcases ta with _ | ⟨a1, a2, a3⟩
      · exact Or.inl he
      · simp only [addTree] at he
        rcases mem_treeInsert_elim he with heq | he2
        · right
          obtain ⟨k2, l2, s2, hm2, hs2, hb1, hb2, haeq, hgt⟩ :=
            hfa (a1, a2, a3) rfl
          injection haeq with q1 q23
          injection q23 with q2 q3
          subst q1
          subst q2
          subst q3
          exact ⟨k2, l2, a3, hm2, hs2, hb1, hb2, hgt, heq⟩
        · exact Or.inl he2
    rcases hstep with he2 | htail
    · have heT1 : e ∈ trimTree t.used pm := mem_foldl_treeRemove he2
      have hkeys : ∀ kk ∈ tr, e.1 ≠ kk :=
        fun kk hkk => key_not_mem_foldl_treeRemove hcT1 kk hkk e he2
      rcases pm with _ | ⟨kp, np⟩
      · exact Or.inr (Or.inr ⟨heT1, hkeys, fun p hp => by cases hp⟩)
      · obtain ⟨kps, lps, sps, hmp, hq1, hq2, hq3, hqeq⟩ := hfp (kp, np) rfl
        injection hqeq with r1 r2
        subst r1
        subst r2
        simp only [trimTree] at heT1
        rcases mem_setEntryLen_elim_chained hc heT1 with
          ⟨s0, l0, heeq, hm0⟩ | ⟨hmu, hne⟩
        · right
          left
          obtain ⟨hu1, hu2⟩ := chained_unique hc _ _ _ _ _ hm0 hmp
          exact ⟨kp, lps, sps, hmp, hq1, hq2, hq3, by rw [heeq, hu2]⟩
        · exact Or.inr (Or.inr ⟨hmu, hkeys,
            fun p hp => by injection hp with hp2; rw [← hp2]; exact hne⟩)
    · exact Or.inl htail
  have hkeep : ∀ (e2 : Entry), e2 ∈ t.used →
      (∀ kk ∈ tr, e2.1 ≠ kk) → (∀ p, pm = some p → e2.1 ≠ p.1) →
      e2 ∈ (unmark_range t off len).used := by
    intro e2 hm2 hktr hkpm
    rw [hused]
    have hT1 : e2 ∈ trimTree t.used pm := by
      rcases pm with _ | ⟨kp, np⟩
      · exact hm2
      · simp only [trimTree]
        exact mem_setEntryLen_of_ne hm2 (hkpm (kp, np) rfl)
    have hR : e2 ∈ tr.foldl (fun trr kk => treeRemove kk trr)
        (trimTree t.used pm) :=
      mem_foldl_treeRemove_of_ne hT1 hktr
    rcases ta with _ | ⟨a1, a2, a3⟩
    · exact hR
    · obtain ⟨k2, l2, s2, hm3, hs3, hb1, hb2, haeq, hgt⟩ := hfa (a1, a2, a3) rfl
      injection haeq with q1 q23
      subst q1
      simp only [addTree]
      refine mem_treeInsert_of_mem ?_ hR
      intro hek
      obtain ⟨e2k, e2l, e2s⟩ := e2
      simp only at hek
      subst hek
      have := chained_pairwise hc _ _ _ _ _ _ hm3 hm2 (by omega)
      omega
  have htrimmem : ∀ k2 l2, (k2, l2, Sent) ∈ t.used → k2 < off → off < k2 + l2 →
      (k2, off - k2, Sent) ∈ (unmark_range t off len).used := by
    intro k2 l2 hm2 hlt hgt
    have hpmv := L1 k2 l2 hm2 hlt hgt
    rw [hused]
    have hT1 : ((k2, off - k2, Sent) : Entry) ∈ trimTree t.used pm := by
      rw [hpmv]
      simp only [trimTree]
      exact mem_setEntryLen_self_chained hc hm2
    have hR : ((k2, off - k2, Sent) : Entry) ∈
        tr.foldl (fun trr kk => treeRemove kk trr) (trimTree t.used pm) := by
      apply mem_foldl_treeRemove_of_ne hT1
      intro kk hkk
      obtain ⟨l3, s3, _, _, hb3, _⟩ := hfr kk hkk
      show k2 ≠ kk
      omega
    rcases ta with _ | ⟨a1, a2, a3⟩
    · exact hR
    · obtain ⟨k3, l3, s3, _, _, _, _, haeq, _⟩ := hfa (a1, a2, a3) rfl
      injection haeq with q1 _
      subst q1
      simp only [addTree]
      refine mem_treeInsert_of_mem ?_ hR
      show k2 ≠ off + len
      omega
  refine ⟨?_, ?_, ?_⟩
  · -- below off: coverage unchanged
    intro x hx
    rcases hov : covState x t.used with _ | s
    · apply covState_eq_none
      intro e he hcov
      rcases hF1 e he with ⟨k2, l2, s2, _, _, _, _, _, heq⟩ |
        ⟨k2, l2, s2, hm2, hq1, hq2, _, heq⟩ | ⟨hmu, _, _⟩
      · subst heq
        simp only at hcov
        omega
      · subst heq
        simp only at hcov
        have hc2 : covState x t.used = some s2 :=
          covState_of_mem hc hm2 (by omega) (by omega)
        rw [hov] at hc2
        cases hc2
      · obtain ⟨ek, el, es⟩ := e
        simp only at hcov
        have hc2 := covState_of_mem hc hmu hcov.1 hcov.2
        rw [hov] at hc2
        cases hc2
    · obtain ⟨k0, l0, hm0, ha0, hb0⟩ := covState_some_elim hov
      rcases Nat.lt_or_ge (k0 + l0) (off + 1) with hend | hend
      · have hend2 : k0 + l0 ≤ off := by omega
        have hin : ((k0, l0, s) : Entry) ∈ (unmark_range t off len).used := by
          apply hkeep _ hm0
          · intro kk hkk
            obtain ⟨l3, s3, _, _, hb3, _⟩ := hfr kk hkk
            show k0 ≠ kk
            omega
          · intro p hp
            obtain ⟨kps, lps, sps, hmp, hr1, hr2, _, hpeq⟩ := hfp p hp
            subst hpeq
            show k0 ≠ kps
            intro hk0
            subst hk0
            obtain ⟨hu1, _⟩ := chained_unique hc _ _ _ _ _ hm0 hmp
            omega
        exact covState_of_mem hFc hin ha0 hb0
      · by_cases hs0 : s = Acked
        · have hin : ((k0, l0, s) : Entry) ∈ (unmark_range t off len).used := by
            apply hkeep _ hm0
            · intro kk hkk
              obtain ⟨l3, s3, hm3, hs3, hb3, _⟩ := hfr kk hkk
              show k0 ≠ kk
              intro hk0
              subst hk0
              obtain ⟨_, hu2⟩ := chained_unique hc _ _ _ _ _ hm0 hm3
              exact hs3 (hu2.symm.trans hs0)
            · intro p hp
              obtain ⟨kps, lps, sps, hmp, hr1, hr2, hr3, hpeq⟩ := hfp p hp
              subst hpeq
              show k0 ≠ kps
              intro hk0
              subst hk0
              obtain ⟨_, hu2⟩ := chained_unique hc _ _ _ _ _ hm0 hmp
              exact hr3 (hu2.symm.trans hs0)
          exact covState_of_mem hFc hin ha0 hb0
        · have hsent : s = Sent := by
            cases s with
            | Sent => rfl
            | Acked => exact absurd rfl hs0
          subst hsent
          have htr := htrimmem k0 l0 hm0 (by omega) (by omega)
          exact covState_of_mem hFc htr ha0 (by omega)
  · -- middle region
    intro x h1 h2
    by_cases hak : covState x t.used = some Acked
    · rw [if_pos hak]
      obtain ⟨k0, l0, hm0, ha0, hb0⟩ := covState_some_elim hak
      have hin : ((k0, l0, Acked) : Entry) ∈ (unmark_range t off len).used := by
        apply hkeep _ hm0
        · intro kk hkk
          obtain ⟨l3, s3, hm3, hs3, _, _⟩ := hfr kk hkk
          show k0 ≠ kk
          intro hk0
          subst hk0
          obtain ⟨_, hu2⟩ := chained_unique hc _ _ _ _ _ hm0 hm3
          exact hs3 hu2.symm
        · intro p hp
          obtain ⟨kps, lps, sps, hmp, _, _, hr3, hpeq⟩ := hfp p hp
          subst hpeq
          show k0 ≠ kps
          intro hk0
          subst hk0
          obtain ⟨_, hu2⟩ := chained_unique hc _ _ _ _ _ hm0 hmp
          exact hr3 hu2.symm
      exact covState_of_mem hFc hin ha0 hb0
    · rw [if_neg hak]
      apply covState_eq_none
      intro e he hcov
      rcases hF1 e he with ⟨k2, l2, s2, hm2, hs2, hq1, hq2, hgt, heq⟩ |
        ⟨k2, l2, s2, hm2, hq1, hq2, hs2, heq⟩ | ⟨hmu, hktr, hkpm⟩
      · subst heq
        simp only at hcov
        omega
      · subst heq
        simp only at hcov
        omega
      · obtain ⟨ek, el, es⟩ := e
        simp only at hcov
        have hcov2 := covState_of_mem hc hmu hcov.1 hcov.2
        by_cases hes : es = Acked
        · rw [hes] at hcov2
          exact hak hcov2
        · have hes2 : es = Sent := by
            cases es with
            | Sent => rfl
            | Acked => exact absurd rfl hes
          subst hes2
          rcases Nat.lt_or_ge ek off with hlt | hge
          · have hpmv := L1 ek el hmu hlt (by omega)
            exact hkpm (ek, off - ek) hpmv rfl
          · have hintr := L2 ek el hmu hge (by omega)
            exact hktr ek hintr rfl
  · -- straddler: trimmed entry present, tail coverage dropped
    intro k2 l2 hm2 hlt hgt
    refine ⟨htrimmem k2 l2 hm2 hlt hgt, ?_⟩
    intro x hx1 hx2
    apply covState_eq_none
    intro e he hcov
    rcases hF1 e he with ⟨k3, l3, s3, hm3, hs3, hq1, hq2, hgt3, heq⟩ |
      ⟨k3, l3, s3, hm3, hq1, hq2, hs3, heq⟩ | ⟨hmu, hktr, hkpm⟩
    · subst heq
      simp only at hcov
      have hcover3 : x < k3 + l3 := by omega
      obtain ⟨hk23, _, _⟩ := chained_cover_unique hc hm2 hm3
        (by omega) (by omega) (by omega) hcover3
      omega
    · subst heq
      simp only at hcov
      omega
    · obtain ⟨ek, el, es⟩ := e
      simp only at hcov
      obtain ⟨hkeq, hleq, hseq⟩ := chained_cover_unique hc hmu hm2
        hcov.1 hcov.2 (by omega) (by omega)
      have hpmv := L1 k2 l2 hm2 hlt hgt
      exact hkpm (k2, off - k2) hpmv hkeq

theorem unmarkLoop64_lt {off len k l : Nat} {s : RangeState} {rest : List Entry}
    {tr0 : List Nat} {ta0 : Option Entry} (hk : k < off) :
    unmarkLoop64 off len ((k, l, s) :: rest) tr0 ta0 =
      some (tr0, ta0,
        if add64 k l > off ∧ s ≠ Acked then some (k, off - k) else none) := by
  rw [unmarkLoop64.eq_def]
  simp only []
  rw [if_pos hk]

theorem mark_range64_overflow (t : RangeTracker) (off len : Nat) (state : RangeState)
    (hoff : off < twoPow64) (hlen : len < twoPow64) (hov : twoPow64 ≤ off + len) :
    mark_range64 t off len state = none := by
  have h0 : ¬len = 0 := by
    simp only [twoPow64] at hoff hov
    omega
  have hlt : add64 off len < off := by
    simp only [add64, twoPow64] at hoff hlen hov ⊢
    omega
  rw [mark_range64, if_neg h0, if_pos hlt]

theorem unmark_range64_overflow (t : RangeTracker) (off len : Nat)
    (hoff : off < twoPow64) (hlen : len < twoPow64) (hov : twoPow64 ≤ off + len) :
    (unmark_range64 t off len).isSome := by
  have h0 : ¬len = 0 := by
    simp only [twoPow64] at hoff hov
    omega
  have hend : add64 off len < off := by
    simp only [add64, twoPow64] at hoff hlen hov ⊢
    omega
  have hloop : ∃ r, unmarkLoop64 off len
      ((t.used.filter (fun e => decide (e.1 < add64 off len))).reverse) [] none =
      some r := by
    rcases hfl : (t.used.filter (fun e => decide (e.1 < add64 off len))).reverse with
      _ | ⟨⟨k, l, s⟩, rest⟩
    · rw [hfl]
      exact ⟨_, rfl⟩
    · have hm : ((k, l, s) : Entry) ∈
          (t.used.filter (fun e => decide (e.1 < add64 off len))).reverse := by
        rw [hfl]
        exact List.mem_cons_self _ _
      have hk2 := (List.mem_filter.mp (List.mem_reverse.mp hm)).2
      simp only [decide_eq_true_eq] at hk2
      have hk : k < off := by omega
      rw [hfl]
      exact ⟨_, unmarkLoop64_lt hk⟩
  obtain ⟨⟨tr, ta, pm⟩, hr⟩ := hloop
  rw [unmark_range64, if_neg h0, hr]
  rfl

/-! ### Claim theorems -/

/-- Claim C1 (counterexample): on the tracker obtained by
`mark_range(0, 1000, Sent)` from empty, `unmark_range(200, 300)` does
not produce the map `{0 -> (200, Sent), 500 -> (500, Sent)}` claimed by
the specification, and `first_unmarked_range` does not return
`(200, Some 300)`: the straddling Sent entry is trimmed to end at 200
and its tail beyond 500 is dropped, so the map is `{0 -> (200, Sent)}`
and the query returns `(200, None)`. -/
theorem C1_counterexample :
    (unmark_range (mark_range emptyTracker 0 1000 Sent) 200 300).used ≠
      [(0, 200, Sent), (500, 500, Sent)] ∧
    (first_unmarked_range
      (unmark_range (mark_range emptyTracker 0 1000 Sent) 200 300)).1 ≠
      (200, some 300) := by
  refine ⟨by decide, by decide⟩

/-- Claim C1 (amended): for every well-formed tracker and `len > 0`,
`unmark_range(off, len)` leaves all Acked entries unchanged, leaves the
coverage of every offset below `off` unchanged, and removes exactly the
Sent coverage in `[off, off + len)` (an offset there keeps its Acked
coverage and becomes unmarked otherwise); however, a Sent entry
straddling `off` is trimmed to end at `off`, silently discarding also
its part beyond `off + len`: the trimmed entry `(k, off - k, Sent)`
replaces it and every offset of its tail in `[off + len, k + l)` loses
its coverage.  In the scenario, `mark_range(0, 1000, Sent)` followed by
`unmark_range(200, 300)` yields the single entry `{0 -> (200, Sent)}`
and `first_unmarked_range` returns `(200, None)`. -/
theorem C1_amended {t : RangeTracker} (hc : Chained 0 t.used) {off len : Nat}
    (hlen : 0 < len) :
    ((unmark_range t off len).used.filter (fun e => decide (e.2.2 = Acked)) =
      t.used.filter (fun e => decide (e.2.2 = Acked))) ∧
    (∀ x, x < off →
      covState x (unmark_range t off len).used = covState x t.used) ∧
    (∀ x, off ≤ x → x < off + len →
      covState x (unmark_range t off len).used =
        (if covState x t.used = some Acked then some Acked else none)) ∧
    (∀ k l, (k, l, Sent) ∈ t.used → k < off → off < k + l →
      (k, off - k, Sent) ∈ (unmark_range t off len).used ∧
      (∀ x, off + len ≤ x → x < k + l →
        covState x (unmark_range t off len).used = none)) ∧
    ((unmark_range (mark_range emptyTracker 0 1000 Sent) 200 300).used =
      [(0, 200, Sent)] ∧
    (first_unmarked_range
      (unmark_range (mark_range emptyTracker 0 1000 Sent) 200 300)).1 =
      (200, none)) :=
  have h := unmark_range_cov hc hlen
  ⟨(unmark_range_spec hc).2, h.1, h.2.1, h.2.2, ⟨by decide, by decide⟩⟩

theorem C1_amended_witness :
    (Chained 0 (mark_range emptyTracker 0 10 Sent).used ∧ 0 < 3) ∧
    (((unmark_range (mark_range emptyTracker 0 10 Sent) 2 3).used.filter
        (fun e => decide (e.2.2 = Acked)) =
      (mark_range emptyTracker 0 10 Sent).used.filter
        (fun e => decide (e.2.2 = Acked))) ∧
    (∀ x, x < 2 →
      covState x (unmark_range (mark_range emptyTracker 0 10 Sent) 2 3).used =
        covState x (mark_range emptyTracker 0 10 Sent).used) ∧
    (∀ x, 2 ≤ x → x < 2 + 3 →
      covState x (unmark_range (mark_range emptyTracker 0 10 Sent) 2 3).used =
        (if covState x (mark_range emptyTracker 0 10 Sent).used = some Acked
         then some Acked else none)) ∧
    (∀ k l, (k, l, Sent) ∈ (mark_range emptyTracker 0 10 Sent).used →
      k < 2 → 2 < k + l →
      (k, 2 - k, Sent) ∈
        (unmark_range (mark_range emptyTracker 0 10 Sent) 2 3).used ∧
      (∀ x, 2 + 3 ≤ x → x < k + l →
        covState x (unmark_range (mark_range emptyTracker 0 10 Sent) 2 3).used =
          none)) ∧
    ((unmark_range (mark_range emptyTracker 0 1000 Sent) 200 300).used =
      [(0, 200, Sent)] ∧
    (first_unmarked_range
      (unmark_range (mark_range emptyTracker 0 1000 Sent) 200 300)).1 =
      (200, none))) :=
  ⟨⟨(@mark_range_spec emptyTracker 0 10 Sent trivial (by decide)).1, by decide⟩,
   @C1_amended (mark_range emptyTracker 0 10 Sent)
     (@mark_range_spec emptyTracker 0 10 Sent trivial (by decide)).1 2 3
     (by decide)⟩

/-- Claim C2: starting from the empty tracker, no offset in state Acked
ever transitions back to Sent or unmarked: every public operation
(`mark_range`, `unmark_range`, `unmark_sent`, `first_unmarked_range`)
applied to a reachable tracker preserves the Acked coverage of every
offset. -/
theorem C2_acked_monotone {t t2 : RangeTracker} (hr : Reachable t)
    (hs : Step t t2) {x : Nat} (h : covState x t.used = some Acked) :
    covState x t2.used = some Acked := by
  obtain ⟨hc, hpc⟩ := reachable_inv hr
  cases hs with
  | mark off len state hb =>
    by_cases hlen : len = 0
    · rw [mark_range, if_pos hlen]
      exact h
    · obtain ⟨_, _, hcov⟩ := mark_range_spec hc (Nat.pos_of_ne_zero hlen)
      rw [hcov x]
      by_cases hin : off ≤ x ∧ x < off + len
      · rw [if_pos hin]
        cases state with
        | Sent => rw [if_pos ⟨rfl, h⟩]
        | Acked => rw [if_neg (fun hcon => absurd hcon.1 (by decide))]
      · rw [if_neg hin]
        exact h
  | unmark off len hb =>
    obtain ⟨hc2, hf⟩ := unmark_range_spec hc
    exact covAcked_of_filter hc2 hf h
  | unmarkSent =>
    obtain ⟨hc2, hf⟩ := unmark_sent_spec hc
    have hff : (unmark_sent t).used.filter (fun e => decide (e.2.2 = Acked)) =
        t.used.filter (fun e => decide (e.2.2 = Acked)) := by
      rw [hf]
      apply List.filter_eq_self.mpr
      intro e he
      exact (List.mem_filter.mp he).2
    exact covAcked_of_filter hc2 hff h
  | query =>
    rw [first_unmarked_used]
    exact h

theorem C2_acked_monotone_witness :
    covState 0 (mark_range emptyTracker 0 5 Acked).used = some Acked ∧
    covState 0 (unmark_range (mark_range emptyTracker 0 5 Acked) 0 5).used =
      some Acked :=
  ⟨by decide,
   C2_acked_monotone
     (Reachable.step Reachable.empty (Step.mark emptyTracker 0 5 Acked (by decide)))
     (Step.unmark (mark_range emptyTracker 0 5 Acked) 0 5 (by decide))
     (by decide)⟩

/-- Claim C3: after every public operation applied to a reachable
tracker state, the stored entries are pairwise disjoint: for entries
`(o1, l1, _)` and `(o2, l2, _)` with `o1 < o2`, `o1 + l1 <= o2`. -/
theorem C3_disjoint {t t2 : RangeTracker} (hr : Reachable t) (hs : Step t t2) :
    ∀ o1 l1 s1 o2 l2 s2, (o1, l1, s1) ∈ t2.used → (o2, l2, s2) ∈ t2.used →
      o1 < o2 → o1 + l1 ≤ o2 :=
  chained_pairwise (reachable_inv (Reachable.step hr hs)).1

theorem C3_disjoint_witness :
    Reachable emptyTracker ∧
    (∀ o1 l1 s1 o2 l2 s2,
      (o1, l1, s1) ∈ (mark_range emptyTracker 0 5 Sent).used →
      (o2, l2, s2) ∈ (mark_range emptyTracker 0 5 Sent).used →
      o1 < o2 → o1 + l1 ≤ o2) :=
  ⟨Reachable.empty,
   C3_disjoint Reachable.empty (Step.mark emptyTracker 0 5 Sent (by decide))⟩

/-- Claim C4: marking a Sent range over an Acked region silently drops
the overlap while the pre- and post-overlap portions still apply:
`mark_range(0, 1000, Acked)` then `mark_range(500, 500, Sent)` leaves
the single entry `{0 -> (1000, Acked)}`, and `mark_range(100, 100,
Acked)` then `mark_range(50, 200, Sent)` yields
`{50 -> (50, Sent), 100 -> (100, Acked), 200 -> (50, Sent)}`. -/
theorem C4_acked_downgrade :
    (mark_range (mark_range emptyTracker 0 1000 Acked) 500 500 Sent).used =
      [(0, 1000, Acked)] ∧
    (mark_range (mark_range emptyTracker 100 100 Acked) 50 200 Sent).used =
      [(50, 50, Sent), (100, 100, Acked), (200, 50, Sent)] := by
  refine ⟨by decide, by decide⟩

/-- Claim C5: after any `mark_range` call on a reachable tracker, if an
Acked entry of length `L` sits at key 0, then no Acked entry sits at
key `L`: the acknowledged prefix is fully coalesced. -/
theorem C5_coalesced_prefix {t : RangeTracker} (hr : Reachable t)
    (off len : Nat) (state : RangeState) {L l2 : Nat}
    (hg0 : treeGet 0 (mark_range t off len state).used = some (L, Acked)) :
    treeGet L (mark_range t off len state).used ≠ some (l2, Acked) := by
  obtain ⟨hc, hpc⟩ := reachable_inv hr
  by_cases hlen : len = 0
  · rw [mark_range, if_pos hlen] at hg0 ⊢
    exact hpc L l2 hg0
  · obtain ⟨_, hpc2, _⟩ := mark_range_spec hc (Nat.pos_of_ne_zero hlen)
    exact hpc2 L l2 hg0

theorem C5_coalesced_prefix_witness :
    Reachable emptyTracker ∧
    treeGet 0 (mark_range emptyTracker 0 5 Acked).used = some (5, Acked) ∧
    treeGet 5 (mark_range emptyTracker 0 5 Acked).used ≠ some (1, Acked) :=
  ⟨Reachable.empty, by decide,
   C5_coalesced_prefix Reachable.empty 0 5 Acked (by decide)⟩

/-- Claim C6: on every reachable tracker state, `unmark_sent` erases
every Sent entry and retains every Acked entry unchanged (its map is
the Acked-filtered map), and it is idempotent. -/
theorem C6_unmark_sent {t : RangeTracker} (hr : Reachable t) :
    (unmark_sent t).used = t.used.filter (fun e => decide (e.2.2 = Acked)) ∧
    (unmark_sent (unmark_sent t)).used = (unmark_sent t).used := by
  obtain ⟨hc, _⟩ := reachable_inv hr
  obtain ⟨hc2, hf⟩ := unmark_sent_spec hc
  refine ⟨hf, ?_⟩
  obtain ⟨_, hf2⟩ := unmark_sent_spec hc2
  rw [hf2, hf]
  apply List.filter_eq_self.mpr
  intro e he
  exact (List.mem_filter.mp he).2

theorem C6_unmark_sent_witness :
    Reachable (mark_range emptyTracker 0 5 Sent) ∧
    ((unmark_sent (mark_range emptyTracker 0 5 Sent)).used =
      (mark_range emptyTracker 0 5 Sent).used.filter
        (fun e => decide (e.2.2 = Acked)) ∧
     (unmark_sent (unmark_sent (mark_range emptyTracker 0 5 Sent))).used =
      (unmark_sent (mark_range emptyTracker 0 5 Sent)).used) :=
  ⟨Reachable.step Reachable.empty (Step.mark emptyTracker 0 5 Sent (by decide)),
   C6_unmark_sent
     (Reachable.step Reachable.empty (Step.mark emptyTracker 0 5 Sent (by decide)))⟩

/-- Claim C7: on a reachable tracker in which no entry intersects
`[o, o + n)` and `n > 0`, `mark_range(o, n, Sent)` followed by
`unmark_range(o, n)` restores the map of entries. -/
theorem C7_inverse {t : RangeTracker} (hr : Reachable t) {o n : Nat}
    (hn : 0 < n) (hhole : ∀ e ∈ t.used, e.1 + e.2.1 ≤ o ∨ o + n ≤ e.1) :
    (unmark_range (mark_range t o n Sent) o n).used = t.used := by
  obtain ⟨hc, hpc⟩ := reachable_inv hr
  exact mark_unmark_hole hc hpc hn hhole

theorem C7_inverse_witness :
    (0 < 3 ∧ ∀ e ∈ (mark_range emptyTracker 0 5 Sent).used,
        e.1 + e.2.1 ≤ 10 ∨ 10 + 3 ≤ e.1) ∧
    (unmark_range (mark_range (mark_range emptyTracker 0 5 Sent) 10 3 Sent)
      10 3).used = (mark_range emptyTracker 0 5 Sent).used :=
  ⟨⟨by decide, by decide⟩,
   C7_inverse
     (Reachable.step Reachable.empty (Step.mark emptyTracker 0 5 Sent (by decide)))
     (by decide) (by decide)⟩

/-- Claim C8 (counterexample): `unmark_range` does not abort when
`off + len` exceeds `2^64 - 1`: with the 64-bit wrapping semantics of
the source, `unmark_range(2^64 - 1, 2)` on the tracker holding
`{0 -> (10, Sent)}` silently wraps `off + len` to 1 and returns
normally instead of aborting. -/
theorem C8_counterexample :
    twoPow64 ≤ (twoPow64 - 1) + 2 ∧
    unmark_range64 (mark_range emptyTracker 0 10 Sent) (twoPow64 - 1) 2 ≠
      none := by
  refine ⟨by decide, by decide⟩

/-- Claim C8 (amended): at the overflow boundary the two operations
differ, for every tracker and all u64 arguments with `off + len` past
`2^64 - 1`: `mark_range` aborts (the wrapped end of its range scan
falls below its start, a panic modelled as `none`), but `unmark_range`
never aborts: it silently wraps the 64-bit addition `off + len` and
completes; in the scenario the map is left unchanged. -/
theorem C8_amended :
    (∀ (t : RangeTracker) (off len : Nat) (state : RangeState),
      off < twoPow64 → len < twoPow64 → twoPow64 ≤ off + len →
      mark_range64 t off len state = none) ∧
    (∀ (t : RangeTracker) (off len : Nat),
      off < twoPow64 → len < twoPow64 → twoPow64 ≤ off + len →
      (unmark_range64 t off len).isSome) ∧
    unmark_range64 (mark_range emptyTracker 0 10 Sent) (twoPow64 - 1) 2 =
      some { used := [(0, 10, Sent)], cached := none } :=
  ⟨mark_range64_overflow, unmark_range64_overflow, by decide⟩

/-- Claim C9: for every reachable tracker and every
`mark_range(off, len, state)` with `len > 0` and no arithmetic
overflow, afterwards every offset in `[off, off + len)` is covered by
some entry: the marked interval contains no hole. -/
theorem C9_no_hole {t : RangeTracker} (hr : Reachable t) {off len : Nat}
    (state : RangeState) (hlen : 0 < len) (_hov : off + len < twoPow64) :
    ∀ x, off ≤ x → x < off + len →
      (covState x (mark_range t off len state).used).isSome := by
  obtain ⟨hc, _⟩ := reachable_inv hr
  obtain ⟨_, _, hcov⟩ := mark_range_spec hc hlen
  intro x h1 h2
  rw [hcov x, if_pos ⟨h1, h2⟩]
  by_cases hca : state = Sent ∧ covState x t.used = some Acked
  · rw [if_pos hca]
    rfl
  · rw [if_neg hca]
    rfl

theorem C9_no_hole_witness :
    (0 < 5 ∧ 0 + 5 < twoPow64) ∧
    ∀ x, 0 ≤ x → x < 0 + 5 →
      (covState x (mark_range emptyTracker 0 5 Sent).used).isSome :=
  ⟨⟨by decide, by decide⟩,
   C9_no_hole Reachable.empty Sent (by decide) (by decide)⟩

/-- Claim C10: `first_unmarked_range` never modifies the `used` map:
for every tracker state the entries are identical before and after the
call; only the cache may change. -/
theorem C10_frame : ∀ t : RangeTracker,
    ((first_unmarked_range t).2).used = t.used := by
  intro t
  rcases hcc : t.cached with _ | c
  · simp only [first_unmarked_range, hcc]
  · simp only [first_unmarked_range, hcc]
